import Mathlib

/-!
Verification of the change-tracking library (path-addressed mutation engine,
change engine, diff/reconciliation engine) against its specification.

The JavaScript/TypeScript source is shallowly embedded:
* runtime values are modelled by the inductive `JVal` (object graphs are
  modelled as trees; `undefined` and `null` are distinct constructors, JS
  numbers are modelled by integers together with the special values
  `nan`, `inf`, `ninf`);
* in-place mutation is modelled by state passing: a mutating routine takes the
  root value and returns the new root; a strict-mode `TypeError` (assignment
  to a property of a primitive, method call on a non-array, ...) is modelled
  by `none` / an error value;
* `JSON.parse` / `JSON.stringify` (external primitives used by the engine) are
  modelled by an executable encoder and a fuel-based recursive-descent parser
  over the integer-numbered JSON fragment, with a proved parse-of-stringify
  round-trip theorem.
-/

set_option maxHeartbeats 1000000

namespace ChangeTracking

/-- Model of a JavaScript runtime value.  Arrays carry both their elements and
their named (non-index) own properties, since JS arrays are objects and the
engine can store arbitrary keys on them.  Objects are ordered association
lists, matching JS own-property insertion order. -/
inductive JVal where
  | undef
  | null
  | bool (b : Bool)
  | num (n : Int)
  | nan
  | inf
  | ninf
  | str (s : String)
  | arr (xs : List JVal) (props : List (String × JVal))
  | obj (kvs : List (String × JVal))
deriving Repr

-- Boolean structural equality on `JVal`, used to state concrete
-- counterexamples without a derived `DecidableEq`.
mutual
def jvalBeq : JVal → JVal → Bool
  | .undef, .undef => true
  | .null, .null => true
  | .bool a, .bool b => a == b
  | .num a, .num b => a == b
  | .nan, .nan => true
  | .inf, .inf => true
  | .ninf, .ninf => true
  | .str a, .str b => a == b
  | .arr xs ps, .arr ys qs => jvalBeqL xs ys && jvalBeqP ps qs
  | .obj ps, .obj qs => jvalBeqP ps qs
  | _, _ => false

def jvalBeqL : List JVal → List JVal → Bool
  | [], [] => true
  | x :: xs, y :: ys => jvalBeq x y && jvalBeqL xs ys
  | _, _ => false

def jvalBeqP : List (String × JVal) → List (String × JVal) → Bool
  | [], [] => true
  | (k, v) :: xs, (l, w) :: ys => k == l && jvalBeq v w && jvalBeqP xs ys
  | _, _ => false
end

mutual
theorem jvalBeq_refl : ∀ v : JVal, jvalBeq v v = true
  | .undef | .null | .nan | .inf | .ninf => rfl
  | .bool b => by simp [jvalBeq]
  | .num n => by simp [jvalBeq]
  | .str s => by simp [jvalBeq]
  | .arr xs ps => by simp [jvalBeq, jvalBeqL_refl xs, jvalBeqP_refl ps]
  | .obj ps => by simp [jvalBeq, jvalBeqP_refl ps]

theorem jvalBeqL_refl : ∀ xs : List JVal, jvalBeqL xs xs = true
  | [] => rfl
  | x :: xs => by simp [jvalBeqL, jvalBeq_refl x, jvalBeqL_refl xs]

theorem jvalBeqP_refl : ∀ xs : List (String × JVal), jvalBeqP xs xs = true
  | [] => rfl
  | (k, v) :: xs => by simp [jvalBeqP, jvalBeq_refl v, jvalBeqP_refl xs]
end

theorem jvalBeq_false_ne {a b : JVal} (h : jvalBeq a b = false) : a ≠ b := by
  intro he; subst he; rw [jvalBeq_refl] at h; exact Bool.noConfusion h

/-- Check for the JS nullish values (`undefined` and `null`), which the engine
always tests together (`x === undefined || x === null`, `??`). -/
def JVal.isNullish : JVal → Bool
  | .undef | .null => true
  | _ => false

/-- JS truthiness: `undefined`, `null`, `false`, `0`, `NaN` and `""` are
falsy; every other value (including any object or array) is truthy. -/
def JVal.truthy : JVal → Bool
  | .undef | .null => false
  | .bool b => b
  | .num n => n != 0
  | .nan => false
  | .inf | .ninf => true
  | .str s => s ≠ ""
  | .arr _ _ | .obj _ => true

/-! ## Numeric string helpers (models of JS coercions) -/

/-- Decimal digit characters to a natural number (most significant first). -/
def digsToNat (ds : List Char) : Nat :=
  ds.foldl (fun acc c => acc * 10 + (c.toNat - 48)) 0

/-- Test for the regex `/^\d+$/` used by the auto-vivification policy. -/
def isNumericToken (k : String) : Bool :=
  k ≠ "" && k.data.all Char.isDigit

/-- Canonical array-index property names: the strings JS arrays treat as
element indices (`"0"`, `"15"`, ... with no leading zeros).  Non-canonical
numeric strings such as `"00"` are ordinary property keys on an array. -/
def canonIndex (k : String) : Option Nat :=
  match k.data with
  | [] => none
  | c :: cs =>
    if (c :: cs).all Char.isDigit && (c ≠ '0' || cs = []) then
      some (digsToNat (c :: cs))
    else none

/-- Whitespace characters recognised when modelling `String.prototype.trim`
and the leading trim of `Number` / `parseInt`. -/
def isWsChar (c : Char) : Bool :=
  c = ' ' || c = '\t' || c = '\n' || c = '\r'

/-- Model of `String.prototype.trim` over the modelled whitespace set. -/
def trimWs (s : String) : String :=
  ⟨((s.data.dropWhile isWsChar).reverse.dropWhile isWsChar).reverse⟩

/-- Result of the JS `Number(string)` coercion, restricted to the values the
engine can actually produce from path keys and serialized numbers. -/
inductive NumV where
  | int (i : Int)
  | posInf
  | negInf
  | nan
deriving Repr, DecidableEq

/-- Digits-with-optional-fraction recogniser used by `jsNumber`: accepts
`digits`, `digits.digits`, `digits.`, `.digits` and yields the integer part
(the engine only ever consumes such numbers through integer truncation). -/
def decimalToInt (cs : List Char) : Option Nat :=
  let intPart := cs.takeWhile Char.isDigit
  let rest := cs.dropWhile Char.isDigit
  match rest with
  | [] => if intPart = [] then none else some (digsToNat intPart)
  | '.' :: frac =>
    if frac.all Char.isDigit && (intPart ≠ [] || frac ≠ []) then
      some (digsToNat intPart)
    else none
  | _ => none

/-- Model of the JS `Number(string)` coercion on the fragment the engine
exercises: leading/trailing whitespace, empty string (`0`), signed decimal
integers and decimal fractions (truncated toward zero, which is exactly what
the downstream `splice` integer conversion does with them), and the
`Infinity` forms.  Exponent and hex notations are outside the model and fall
to `nan`. -/
def jsNumber (s : String) : NumV :=
  let cs := (trimWs s).data
  if cs = [] then .int 0
  else if cs = "Infinity".data || cs = "+Infinity".data then .posInf
  else if cs = "-Infinity".data then .negInf
  else
    match cs with
    | '-' :: rest => match decimalToInt rest with
      | some n => .int (-(n : Int))
      | none => .nan
    | '+' :: rest => match decimalToInt rest with
      | some n => .int (n : Int)
      | none => .nan
    | _ => match decimalToInt cs with
      | some n => .int (n : Int)
      | none => .nan

/-- Model of `parseInt(s, 10)` as used on the `@`-index portion of a path:
skip leading whitespace, optional sign, then a maximal digit prefix; no
digits means `NaN` (`none`).  `parseInt(undefined)` — no index portion — is
also `NaN`. -/
def jsParseInt : Option String → Option Int
  | none => none
  | some s =>
    let cs := s.data.dropWhile isWsChar
    let core := fun (l : List Char) (sign : Int) =>
      let ds := l.takeWhile Char.isDigit
      if ds = [] then none else some (sign * (digsToNat ds : Int))
    match cs with
    | '-' :: rest => core rest (-1)
    | '+' :: rest => core rest 1
    | _ => core cs 1

-- Model of the `String(x)` coercion (arrays stringify as their elements
-- joined by commas, with nullish elements as empty strings).  Fuel-based so
-- that it evaluates by kernel reduction; the wrapper passes `2 * sizeOf v`,
-- which dominates the bounded fuel consumption of the traversal, so the
-- fuel-exhaustion branches are unreachable.
mutual
def jsToStringF : Nat → JVal → String
  | _, .undef => "undefined"
  | _, .null => "null"
  | _, .bool b => if b then "true" else "false"
  | _, .num n => toString n
  | _, .nan => "NaN"
  | _, .inf => "Infinity"
  | _, .ninf => "-Infinity"
  | _, .str s => s
  | 0, .arr _ _ => ""
  | fuel + 1, .arr xs _ => jsToStringElemsF fuel xs
  | _, .obj _ => "[object Object]"

def jsToStringElemsF : Nat → List JVal → String
  | _, [] => ""
  | 0, _ :: _ => ""
  | fuel + 1, [x] => jsToStringElemF fuel x
  | fuel + 1, x :: xs => jsToStringElemF fuel x ++ "," ++ jsToStringElemsF fuel xs

def jsToStringElemF : Nat → JVal → String
  | _, .undef => ""
  | _, .null => ""
  | 0, _ => ""
  | fuel + 1, v => jsToStringF fuel v
end

-- Structural size of a value, dominating the fuel consumption of the
-- fuel-based traversals below.
mutual
def jsize : JVal → Nat
  | .arr xs ps => 1 + jsizeL xs + jsizeP ps
  | .obj kvs => 1 + jsizeP kvs
  | _ => 1

def jsizeL : List JVal → Nat
  | [] => 1
  | x :: xs => 1 + jsize x + jsizeL xs

def jsizeP : List (String × JVal) → Nat
  | [] => 1
  | (_, v) :: xs => 1 + jsize v + jsizeP xs
end

def jsToString (v : JVal) : String := jsToStringF (2 * jsize v) v

/-! ## Path Engine (`ObjectManipulator`) -/

theorem dropWhile_length_le {α} (p : α → Bool) :
    ∀ l : List α, (l.dropWhile p).length ≤ l.length
  | [] => le_refl _
  | a :: l => by
    rw [List.dropWhile_cons]
    split
    · exact le_trans (dropWhile_length_le p l) (Nat.le_succ _)
    · exact le_refl _

/-- Model of `ObjectManipulator.parsePath`: tokenizes dot notation and bracket
notation into a flat key sequence.  Mirrors the source loop exactly: `.`
flushes the current token (dropped when empty), `[` flushes and then takes
everything up to the next `]` as one key (an unmatched `[` is dropped), bare
`]` characters are dropped. -/
def parsePathGo : Nat → List Char → List Char → List String → List String
  | _, [], cur, acc => acc ++ (if cur ≠ [] then [⟨cur.reverse⟩] else [])
  | 0, _ :: _, cur, acc => acc ++ (if cur ≠ [] then [⟨cur.reverse⟩] else [])
  | fuel + 1, c :: rest, cur, acc =>
    if c = '.' then
      parsePathGo fuel rest [] (acc ++ (if cur ≠ [] then [⟨cur.reverse⟩] else []))
    else if c = '[' then
      let acc' := acc ++ (if cur ≠ [] then [⟨cur.reverse⟩] else [])
      match rest.dropWhile (fun x => x != ']') with
      | [] =>
        -- no closing bracket: the `[` is dropped and scanning continues
        parsePathGo fuel rest [] acc'
      | _ :: after =>
        parsePathGo fuel after [] (acc' ++ [⟨rest.takeWhile (fun x => x != ']')⟩])
    else if c = ']' then
      parsePathGo fuel rest cur acc
    else
      parsePathGo fuel rest (c :: cur) acc

/-- Each scanning step consumes at least one character, so the input length is
always enough fuel; the fuel-exhaustion case is unreachable and coincides with
the end-of-input case. -/
def parsePath (path : String) : List String :=
  parsePathGo path.data.length path.data [] []

/-- Ordered own-property lookup (JS `obj[key]` on a plain object). -/
def lookupProp (ps : List (String × JVal)) (k : String) : Option JVal :=
  (ps.find? (fun p => p.1 == k)).map (·.2)

/-- Property assignment: replaces the value in place if the key exists
(preserving insertion order), otherwise appends. -/
def setProp : List (String × JVal) → String → JVal → List (String × JVal)
  | [], k, v => [(k, v)]
  | (k0, v0) :: ps, k, v =>
    if k0 = k then (k, v) :: ps else (k0, v0) :: setProp ps k v

/-- Property deletion (JS `delete obj[key]`). -/
def delProp (ps : List (String × JVal)) (k : String) : List (String × JVal) :=
  ps.filter (fun p => p.1 != k)

/-- Element write with JS array-extension semantics: writing past the end
pads the gap with holes (which read back as `undefined`). -/
def arraySet (xs : List JVal) (i : Nat) (v : JVal) : List JVal :=
  if i < xs.length then xs.set i v
  else xs ++ List.replicate (i - xs.length) .undef ++ [v]

/-- Model of reading `v[k]`; `none` is JS `undefined`.  Reading a property of
`undefined`/`null` throws in JS, but every call site in the engine guards for
nullish values first, so those cases are never reached and return `none`. -/
def getKey : JVal → String → Option JVal
  | .obj kvs, k => lookupProp kvs k
  | .arr xs ps, k =>
    (match canonIndex k with
     | some i => xs.get? i
     | none => if k = "length" then some (.num xs.length) else lookupProp ps k)
  | .str s, k =>
    (match canonIndex k with
     | some i => (s.data.get? i).map (fun c => .str ⟨[c]⟩)
     | none => if k = "length" then some (.num s.length) else none)
  | _, _ => none

/-- Model of the assignment `v[k] = x` in strict mode; `none` models the
`TypeError`/`RangeError` raised when `v` is a primitive (or an invalid array
length is assigned).  Assigning `length` on an array resizes it. -/
def setKey : JVal → String → JVal → Option JVal
  | .obj kvs, k, v => some (.obj (setProp kvs k v))
  | .arr xs ps, k, v =>
    (match canonIndex k with
     | some i => some (.arr (arraySet xs i v) ps)
     | none =>
       if k = "length" then
         match v with
         | .num n => if 0 ≤ n then
             some (.arr (if n.toNat ≤ xs.length then xs.take n.toNat
                         else xs ++ List.replicate (n.toNat - xs.length) .undef) ps)
           else none
         | _ => none
       else some (.arr xs (setProp ps k v)))
  | _, _, _ => none

/-- Raw path walk of `getPropertyValue`: each step first returns `none` when
the current value is nullish (the in-loop `return defaultValue`), otherwise
reads the next key; `none` also stands for an `undefined` read. -/
def getWalk : JVal → List String → Option JVal
  | v, [] => some v
  | v, k :: ks =>
    if v.isNullish then none
    else match getKey v k with
      | some w => getWalk w ks
      | none => none

/-- Model of `ObjectManipulator.getPropertyValue` (with `none` standing for an
omitted / `undefined` default): the walk value unless the walk broke off or
produced a nullish value, in which case the default (`current ?? default`). -/
def getPropertyValue (root : JVal) (path : String) (dflt : Option JVal) :
    Option JVal :=
  match getWalk root (parsePath path) with
  | some v => if v.isNullish then dflt else some v
  | none => dflt

/-- Container created by auto-vivification for a missing parent: an array when
the next key is a purely-numeric token (`/^\d+$/`), a plain object otherwise. -/
def freshFor (nextKey : String) : JVal :=
  if isNumericToken nextKey then .arr [] [] else .obj []

/-- Model of the key-walking loop of `ObjectManipulator.setPropertyValue`.
When the value stored at an intermediate key is absent or nullish, a fresh
container (chosen by `freshFor` from the next key) is created at that step.
Mutation-by-reference is modelled by writing the recursively updated child
back with `setKey`; `none` models the strict-mode `TypeError` on walking into
a primitive (in which case the JS original has not mutated the root either,
because creations only ever happen on an all-fresh suffix of the path). -/
def setWalk : JVal → List String → JVal → Option JVal
  | v, [], value => setKey v "undefined" value
  | v, [k], value => setKey v k value
  | v, k :: k2 :: ks, value =>
    let child := match getKey v k with
      | some c => if c.isNullish then freshFor k2 else c
      | none => freshFor k2
    match setWalk child (k2 :: ks) value with
    | some sub => setKey v k sub
    | none => none

/-- Model of `ObjectManipulator.setPropertyValue`. -/
def setPropertyValue (root : JVal) (path : String) (value : JVal) :
    Option JVal :=
  setWalk root (parsePath path) value

/-- Integer conversion performed by `splice` on its start argument
(`ToIntegerOrInfinity`, then clamping): negative values count from the end,
`NaN` is `0`, `Infinity` clamps to the length. -/
def spliceStart (len : Nat) : NumV → Nat
  | .int i => if i < 0 then (len - (-i).toNat) else min i.toNat len
  | .posInf => len
  | .negInf => 0
  | .nan => 0

/-- Model of `arr.splice(start, 1)` on the elements of an array. -/
def spliceRemove (xs : List JVal) (start : NumV) : List JVal :=
  let a := spliceStart xs.length start
  if a < xs.length then xs.take a ++ xs.drop (a + 1) else xs

/-- Model of `arr.splice(start, 0, v)`. -/
def spliceInsert (xs : List JVal) (start : NumV) (v : JVal) : List JVal :=
  let a := spliceStart xs.length start
  xs.take a ++ [v] ++ xs.drop a

/-- Final step of `deleteProperty`: `Array.isArray(current)` selects between
`splice(Number(lastKey), 1)` and `delete current[lastKey]`.  `none` models
the strict-mode `TypeError` of deleting an own index/`length` property of a
string primitive; deletion on other primitives and on `null`/`undefined`
follows JS (silent no-op, resp. `TypeError`). -/
def delFinal : JVal → String → Option JVal
  | .arr xs ps, k => some (.arr (spliceRemove xs (jsNumber k)) ps)
  | .obj kvs, k => some (.obj (delProp kvs k))
  | .str s, k =>
    (match canonIndex k with
     | some i => if i < s.length then none else some (.str s)
     | none => if k = "length" then none else some (.str s))
  | .undef, _ => none
  | .null, _ => none
  | v, _ => some v

/-- Writeback helper modelling mutation by reference: replace the value of an
existing key of a container, leaving primitives (whose children can never
have been mutated) unchanged. -/
def replaceChild (v : JVal) (k : String) (c : JVal) : JVal :=
  match v with
  | .obj kvs => .obj (setProp kvs k c)
  | .arr xs ps =>
    (match canonIndex k with
     | some i => if i < xs.length then .arr (xs.set i c) ps else .arr xs ps
     | none => if k = "length" then .arr xs ps else .arr xs (setProp ps k c))
  | w => w

/-- Model of the key-walking loop of `ObjectManipulator.deleteProperty`: stop
silently when an intermediate child is nullish, otherwise descend and write
the updated child back. -/
def delWalk : JVal → List String → Option JVal
  | v, [] => delFinal v "undefined"
  | v, [k] => delFinal v k
  | v, k :: k2 :: ks =>
    match getKey v k with
    | none => some v
    | some c =>
      if c.isNullish then some v
      else (delWalk c (k2 :: ks)).map (replaceChild v k)

/-- Model of `ObjectManipulator.deleteProperty`. -/
def deleteProperty (root : JVal) (path : String) : Option JVal :=
  delWalk root (parsePath path)

/-- Replace the value reached by a successful `getWalk` along `keys`
(modelling that the engine mutated, by reference, the container it resolved). -/
def replaceAt : JVal → List String → JVal → JVal
  | _, [], new => new
  | v, k :: ks, new =>
    match getKey v k with
    | some c => replaceChild v k (replaceAt c ks new)
    | none => v

/-- Model of `ObjectManipulator.getArrayAndIndex`: split on `@` (the part
before the first `@` is the array path, the part between the first and second
`@` the index string), `parseInt` the index, and resolve the array path with
`[]` as default.  The result is the resolved target (`none` when the walk
produced a nullish value, i.e. the detached default array was used) together
with the parsed index and the key list needed for writeback. -/
def splitAtSign (path : String) : String × Option String :=
  let pre := path.data.takeWhile (fun c => c != '@')
  match path.data.dropWhile (fun c => c != '@') with
  | [] => (⟨pre⟩, none)
  | _ :: tail => (⟨pre⟩, some ⟨tail.takeWhile (fun c => c != '@')⟩)

def resolveArrayTarget (obj : JVal) (arrayPath : String) :
    Option JVal × List String :=
  let keys := parsePath arrayPath
  match getWalk obj keys with
  | some t => if t.isNullish then (none, keys) else (some t, keys)
  | none => (none, keys)

/-- Model of `ObjectManipulator.insertAtIndex`: `index === -1` appends,
any other index goes through `splice(index, 0, value)`.  When the path does
not resolve to a value, the detached default `[]` is mutated and the root is
returned unchanged; calling `push`/`splice` on a non-array target is a
`TypeError` (`none`). -/
def insertAtIndex (obj : JVal) (path : String) (value : JVal) : Option JVal :=
  let (ap, istr) := splitAtSign path
  let idx := jsParseInt istr
  match resolveArrayTarget obj ap with
  | (none, _) => some obj
  | (some (.arr xs ps), keys) =>
    if idx = some (-1) then some (replaceAt obj keys (.arr (xs ++ [value]) ps))
    else
      let st : NumV := match idx with
        | some i => .int i
        | none => .nan
      some (replaceAt obj keys (.arr (spliceInsert xs st value) ps))
  | (some _, _) => none

/-- Model of `ObjectManipulator.removeAtIndex`: guarded by
`index >= 0 && index < arr.length`; in range it splices one element out,
otherwise it is a silent no-op.  For a non-array target the guard reads the
target's `length` (so a plain object with a numeric `length` property, or a
string, passes the guard and then fails on the missing `splice` method). -/
def removeAtIndex (obj : JVal) (path : String) : Option JVal :=
  let (ap, istr) := splitAtSign path
  let idx := jsParseInt istr
  match idx with
  | none => some obj
  | some i =>
    if i < 0 then some obj
    else
      match resolveArrayTarget obj ap with
      | (none, _) => some obj
      | (some (.arr xs ps), keys) =>
        if i < (xs.length : Int) then
          some (replaceAt obj keys (.arr (spliceRemove xs (.int i)) ps))
        else some obj
      | (some (.obj kvs), _) =>
        (match lookupProp kvs "length" with
         | some (.num L) => if i < L then none else some obj
         | _ => some obj)
      | (some (.str s), _) => if i < (s.length : Int) then none else some obj
      | (some _, _) => some obj

/-- Model of `ObjectManipulator.setValueAtIndex`: guarded by `index >= 0`;
`arr[index] = value` writes the element (extending the array when needed),
writes the property `String(index)` when the target is a plain object, and is
a strict-mode `TypeError` on a primitive target. -/
def setValueAtIndex (obj : JVal) (path : String) (value : JVal) : Option JVal :=
  let (ap, istr) := splitAtSign path
  let idx := jsParseInt istr
  match idx with
  | none => some obj
  | some i =>
    if i < 0 then some obj
    else
      match resolveArrayTarget obj ap with
      | (none, _) => some obj
      | (some (.arr xs ps), keys) =>
        some (replaceAt obj keys (.arr (arraySet xs i.toNat value) ps))
      | (some (.obj kvs), keys) =>
        some (replaceAt obj keys (.obj (setProp kvs (toString i.toNat) value)))
      | (some _, _) => none

/-! ## JSON codec

Model of the external `JSON.stringify` / `JSON.parse` primitives on the
fragment the engine stores: JSON with integer numbers.  (JS numbers are
doubles; the model restricts them to integers, which is also what the test
suite and the builder exercise.)  The encoder mirrors `JSON.stringify`:
strings are quoted with `\" \\ \b \t \n \f \r` short escapes and `\u00XX`
escapes for the remaining control characters; `undefined`, `NaN` and the
infinities (which `JSON.stringify` renders as `null` inside containers) are
mapped to `null` and excluded from the well-formed fragment `jsonWF`.  The
parser is a fuel-based recursive-descent parser for the same grammar; it does
not model inter-token whitespace (the encoder never emits any). -/

def quoteC : Char := '\"'
def bslashC : Char := '\\'
def lbraceC : Char := Char.ofNat 123
def rbraceC : Char := Char.ofNat 125

def hexDigitChar : Nat → Char
  | 0 => '0' | 1 => '1' | 2 => '2' | 3 => '3' | 4 => '4'
  | 5 => '5' | 6 => '6' | 7 => '7' | 8 => '8' | 9 => '9'
  | 10 => 'a' | 11 => 'b' | 12 => 'c' | 13 => 'd' | 14 => 'e'
  | _ => 'f'

def hexVal (c : Char) : Option Nat :=
  if c.isDigit then some (c.toNat - 48)
  else if 'a' ≤ c && c ≤ 'f' then some (c.toNat - 97 + 10)
  else if 'A' ≤ c && c ≤ 'F' then some (c.toNat - 65 + 10)
  else none

def digitChar : Nat → Char
  | 0 => '0' | 1 => '1' | 2 => '2' | 3 => '3' | 4 => '4'
  | 5 => '5' | 6 => '6' | 7 => '7' | 8 => '8' | _ => '9'

/-- Decimal digits of `n`, most significant first (fuel-based so that it
reduces; `n` itself is always enough fuel). -/
def natDigsF : Nat → Nat → List Char
  | 0, n => [digitChar (n % 10)]
  | f + 1, n => if n < 10 then [digitChar n] else natDigsF f (n / 10) ++ [digitChar (n % 10)]

def natDigs (n : Nat) : List Char := natDigsF n n

def encInt (i : Int) : List Char :=
  if i < 0 then '-' :: natDigs (-i).toNat else natDigs i.toNat

/-- String-character escaping of `JSON.stringify`. -/
def escChar (c : Char) : List Char :=
  if c = quoteC then [bslashC, quoteC]
  else if c = bslashC then [bslashC, bslashC]
  else if c = Char.ofNat 8 then [bslashC, 'b']
  else if c = Char.ofNat 9 then [bslashC, 't']
  else if c = Char.ofNat 10 then [bslashC, 'n']
  else if c = Char.ofNat 12 then [bslashC, 'f']
  else if c = Char.ofNat 13 then [bslashC, 'r']
  else if c.toNat < 32 then
    [bslashC, 'u', '0', '0', hexDigitChar (c.toNat / 16), hexDigitChar (c.toNat % 16)]
  else [c]

def encStrBody : List Char → List Char
  | [] => []
  | c :: cs => escChar c ++ encStrBody cs

def encStr (s : String) : List Char := quoteC :: encStrBody s.data ++ [quoteC]

mutual
def encVal : JVal → List Char
  | .null => 'n' :: 'u' :: 'l' :: 'l' :: []
  | .undef => 'n' :: 'u' :: 'l' :: 'l' :: []
  | .nan => 'n' :: 'u' :: 'l' :: 'l' :: []
  | .inf => 'n' :: 'u' :: 'l' :: 'l' :: []
  | .ninf => 'n' :: 'u' :: 'l' :: 'l' :: []
  | .bool true => 't' :: 'r' :: 'u' :: 'e' :: []
  | .bool false => 'f' :: 'a' :: 'l' :: 's' :: 'e' :: []
  | .num n => encInt n
  | .str s => encStr s
  | .arr xs _ => '[' :: encElems xs ++ [']']
  | .obj kvs => lbraceC :: encMembers kvs ++ [rbraceC]

def encElems : List JVal → List Char
  | [] => []
  | [x] => encVal x
  | x :: xs => encVal x ++ ',' :: encElems xs

def encMembers : List (String × JVal) → List Char
  | [] => []
  | [(k, v)] => encStr k ++ ':' :: encVal v
  | (k, v) :: kvs => (encStr k ++ ':' :: encVal v) ++ ',' :: encMembers kvs
end

/-- Model of `JSON.stringify` (on the modelled fragment). -/
def stringifyJ (v : JVal) : String := ⟨encVal v⟩

-- Well-formed JSON values: what `JSON.parse` can produce (no `undefined`,
-- no non-finite numbers, no named properties on arrays).
mutual
def jsonWF : JVal → Bool
  | .null | .bool _ | .num _ | .str _ => true
  | .undef | .nan | .inf | .ninf => false
  | .arr xs ps => ps.isEmpty && jsonWFL xs
  | .obj kvs => jsonWFO kvs

def jsonWFL : List JVal → Bool
  | [] => true
  | x :: xs => jsonWF x && jsonWFL xs

def jsonWFO : List (String × JVal) → Bool
  | [] => true
  | (_, v) :: kvs => jsonWF v && jsonWFO kvs
end

/-- String-body parser: consumes characters (processing escapes) up to and
including the closing quote.  `\uXXXX` escapes in the surrogate range are not
modelled (the encoder never produces them). -/
def pStrChars : List Char → Option (List Char × List Char)
  | [] => none
  | c :: cs =>
    if c = quoteC then some ([], cs)
    else if c = bslashC then
      match cs with
      | [] => none
      | e :: cs2 =>
        if e = quoteC then (pStrChars cs2).map (fun p => (quoteC :: p.1, p.2))
        else if e = bslashC then (pStrChars cs2).map (fun p => (bslashC :: p.1, p.2))
        else if e = '/' then (pStrChars cs2).map (fun p => ('/' :: p.1, p.2))
        else if e = 'b' then (pStrChars cs2).map (fun p => (Char.ofNat 8 :: p.1, p.2))
        else if e = 't' then (pStrChars cs2).map (fun p => (Char.ofNat 9 :: p.1, p.2))
        else if e = 'n' then (pStrChars cs2).map (fun p => (Char.ofNat 10 :: p.1, p.2))
        else if e = 'f' then (pStrChars cs2).map (fun p => (Char.ofNat 12 :: p.1, p.2))
        else if e = 'r' then (pStrChars cs2).map (fun p => (Char.ofNat 13 :: p.1, p.2))
        else if e = 'u' then
          match cs2 with
          | h1 :: h2 :: h3 :: h4 :: cs3 =>
            match hexVal h1, hexVal h2, hexVal h3, hexVal h4 with
            | some v1, some v2, some v3, some v4 =>
              let code := ((v1 * 16 + v2) * 16 + v3) * 16 + v4
              if code < 55296 then
                (pStrChars cs3).map (fun p => (Char.ofNat code :: p.1, p.2))
              else none
            | _, _, _, _ => none
          | _ => none
        else none
    else (pStrChars cs).map (fun p => (c :: p.1, p.2))

def pDigits (cs : List Char) : Option (Nat × List Char) :=
  let ds := cs.takeWhile Char.isDigit
  if ds = [] then none else some (digsToNat ds, cs.dropWhile Char.isDigit)

mutual
def pVal : Nat → List Char → Option (JVal × List Char)
  | 0, _ => none
  | fuel + 1, cs =>
    match cs with
    | 'n' :: 'u' :: 'l' :: 'l' :: rest => some (.null, rest)
    | 't' :: 'r' :: 'u' :: 'e' :: rest => some (.bool true, rest)
    | 'f' :: 'a' :: 'l' :: 's' :: 'e' :: rest => some (.bool false, rest)
    | [] => none
    | c :: rest =>
      if c = '-' then (pDigits rest).map (fun p => (.num (-(p.1 : Int)), p.2))
      else if c = '[' then (pArr fuel rest).map (fun p => (.arr p.1 [], p.2))
      else if c = quoteC then (pStrChars rest).map (fun p => (.str ⟨p.1⟩, p.2))
      else if c = lbraceC then (pObj fuel rest).map (fun p => (.obj p.1, p.2))
      else if c.isDigit then (pDigits (c :: rest)).map (fun p => (.num (p.1 : Int), p.2))
      else none

def pArr : Nat → List Char → Option (List JVal × List Char)
  | 0, _ => none
  | fuel + 1, cs =>
    if cs.head? = some ']' then some ([], cs.tail)
    else
      match pVal fuel cs with
      | none => none
      | some (v, r) =>
        match r with
        | ',' :: r2 => (pArr fuel r2).map (fun p => (v :: p.1, p.2))
        | ']' :: r2 => some ([v], r2)
        | _ => none

def pObj : Nat → List Char → Option (List (String × JVal) × List Char)
  | 0, _ => none
  | fuel + 1, cs =>
    if cs.head? = some rbraceC then some ([], cs.tail)
    else
      match cs with
      | c :: rest =>
        if c = quoteC then
          match pStrChars rest with
          | none => none
          | some (k, r) =>
            match r with
            | ':' :: r2 =>
              (match pVal fuel r2 with
               | none => none
               | some (v, r3) =>
                 match r3 with
                 | ',' :: r4 => (pObj fuel r4).map (fun p => ((⟨k⟩, v) :: p.1, p.2))
                 | c2 :: r4 => if c2 = rbraceC then some ([(⟨k⟩, v)], r4) else none
                 | [] => none)
            | _ => none
        else none
      | [] => none
end

/-- Model of `JSON.parse` (on the modelled fragment): parse one value and
require the input to be fully consumed. -/
def jsonParse (s : String) : Option JVal :=
  match pVal (s.data.length + 1) s.data with
  | some (v, []) => some v
  | _ => none

/-! ## Change Engine (`DocumentChangeParser`) -/

inductive ChangeType where
  | CREATE
  | UPDATE
  | DELETE
deriving Repr, DecidableEq

inductive PropertyType where
  | STRING
  | NUMBER
  | OBJECT
deriving Repr, DecidableEq

structure ChangeDescriptor where
  type : ChangeType
  propertyPath : String
  newValue : Option String
  newValueType : Option PropertyType
deriving Repr

/-- A change group: an ordered sequence of field-level changes (the
`id`/`createdBy`/`createdAt` provenance metadata plays no role in
application and is omitted from the model). -/
structure DocumentChange where
  changes : List ChangeDescriptor
deriving Repr

/-- Errors raised by the change engine.  `typeError` stands for the
strict-mode `TypeError`/`RangeError` accepted as fatal by the spec. -/
inductive ApplyErr where
  | invalidPath (path : String)
  | missingValue (t : ChangeType)
  | decodeFailure (raw : String)
  | typeError
deriving Repr, DecidableEq

/-- Model of the value of the JS `Number(string)` coercion. -/
def numVal : NumV → JVal
  | .int i => .num i
  | .nan => .nan
  | .posInf => .inf
  | .negInf => .ninf

/-- Model of `DocumentChangeParser.parseValue`: STRING passes through,
NUMBER coerces with `Number`, OBJECT parses as JSON and re-parses once when
the first parse yields a string; any parse failure (of either parse) is a
Decode error naming the raw serialized value. -/
def parseValue (value : String) (t : PropertyType) : Except ApplyErr JVal :=
  match t with
  | .STRING => .ok (.str value)
  | .NUMBER => .ok (numVal (jsNumber value))
  | .OBJECT =>
    match jsonParse value with
    | some (.str s) =>
      (match jsonParse s with
       | some v => .ok v
       | none => .error (.decodeFailure value))
    | some v => .ok v
    | none => .error (.decodeFailure value)

/-- Regex `PROPERTY_PATH_REGEX` from the source,
`^(ident(\[\d+\])?)(\.ident(\[\d+\])?)*(@-?\d+)?$` with
`ident = [a-zA-Z_$][0-9a-zA-Z_$]*`, transcribed as a recursive-descent
matcher.  The regex is deterministic: greedy consumption of an identifier /
digit run can never steal a character that a later part of the pattern could
match (`.`, `[`, `]`, `@` and end-of-input are disjoint from the character
classes), so the matcher recognises exactly the regex language. -/
def isIdentStartChar (c : Char) : Bool :=
  ('a' ≤ c && c ≤ 'z') || ('A' ≤ c && c ≤ 'Z') || c = '_' || c = '$'

def isIdentChar (c : Char) : Bool :=
  isIdentStartChar c || c.isDigit

def eatIdent : List Char → Option (List Char)
  | [] => none
  | c :: cs => if isIdentStartChar c then some (cs.dropWhile isIdentChar) else none

def eatDigits1 : List Char → Option (List Char)
  | [] => none
  | c :: cs => if c.isDigit then some (cs.dropWhile Char.isDigit) else none

def eatBracketOpt : List Char → Option (List Char)
  | '[' :: cs =>
    (match eatDigits1 cs with
     | some (']' :: r) => some r
     | _ => none)
  | cs => some cs

def eatSegment (cs : List Char) : Option (List Char) :=
  match eatIdent cs with
  | some r => eatBracketOpt r
  | none => none

def eatDotSegments : Nat → List Char → Option (List Char)
  | _, [] => some []
  | 0, cs => some cs
  | fuel + 1, cs =>
    match cs with
    | '.' :: cs2 =>
      (match eatSegment cs2 with
       | some r => eatDotSegments fuel r
       | none => none)
    | _ => some cs

def eatAtIndexOpt : List Char → Option (List Char)
  | '@' :: cs =>
    (match cs with
     | '-' :: cs2 => eatDigits1 cs2
     | _ => eatDigits1 cs)
  | cs => some cs

/-- Model of `DocumentChangeParser.isValidPropertyPath` (an anchored
`PROPERTY_PATH_REGEX.test`). -/
def isValidPropertyPath (path : String) : Bool :=
  match eatSegment path.data with
  | none => false
  | some r =>
    match eatDotSegments r.length r with
    | none => false
    | some r2 =>
      match eatAtIndexOpt r2 with
      | some [] => true
      | _ => false

/-- Model of `DocumentChangeParser.isArrayChange`. -/
def isArrayChange (path : String) : Bool :=
  path.data.any (fun c => c = '@')

/-- Model of `DocumentChangeParser.applyArrayChange`. -/
def applyArrayChange (obj : JVal) (path : String) (t : ChangeType)
    (value : JVal) : Except ApplyErr JVal :=
  let lift : Option JVal → Except ApplyErr JVal := fun r =>
    match r with
    | some o => .ok o
    | none => .error .typeError
  match t with
  | .CREATE => lift (insertAtIndex obj path value)
  | .UPDATE => lift (setValueAtIndex obj path value)
  | .DELETE => lift (removeAtIndex obj path)

/-- Model of `DocumentChangeParser.applyPropertyChange`. -/
def applyPropertyChange (obj : JVal) (path : String) (t : ChangeType)
    (value : JVal) : Except ApplyErr JVal :=
  let lift : Option JVal → Except ApplyErr JVal := fun r =>
    match r with
    | some o => .ok o
    | none => .error .typeError
  match t with
  | .CREATE | .UPDATE => lift (setPropertyValue obj path value)
  | .DELETE => lift (deleteProperty obj path)

/-- Model of `DocumentChangeParser.applyFieldChange` (the `validatePaths`
argument is the resolved truthiness of `options.validatePaths`, which
defaults to `true`). -/
def applyFieldChange (obj : JVal) (c : ChangeDescriptor)
    (validatePaths : Bool) : Except ApplyErr JVal :=
  if validatePaths && !isValidPropertyPath c.propertyPath then
    .error (.invalidPath c.propertyPath)
  else
    let parsed : Except ApplyErr JVal :=
      if c.type = .CREATE || c.type = .UPDATE then
        match c.newValue, c.newValueType with
        | some nv, some nt => parseValue nv nt
        | _, _ => .error (.missingValue c.type)
      else .ok .null
    match parsed with
    | .error e => .error e
    | .ok v =>
      if isArrayChange c.propertyPath then
        applyArrayChange obj c.propertyPath c.type v
      else
        applyPropertyChange obj c.propertyPath c.type v

/-- Model of `DocumentChangeParser.applyChange`: the descriptors of one group
applied in order to the shared mutable target. -/
def applyChange (obj : JVal) (dc : DocumentChange) (validatePaths : Bool) :
    Except ApplyErr JVal :=
  dc.changes.foldlM (fun o c => applyFieldChange o c validatePaths) obj

/-- Model of `DocumentChangeParser.applyChanges`. -/
def applyChanges (obj : JVal) (dcs : List DocumentChange)
    (validatePaths : Bool) : Except ApplyErr JVal :=
  dcs.foldlM (fun o dc => applyChange o dc validatePaths) obj

-- Model of the external `structuredClone` primitive: a full structural deep
-- copy preserving container kind.
mutual
def structuredCloneJ : JVal → JVal
  | .undef => .undef
  | .null => .null
  | .bool b => .bool b
  | .num n => .num n
  | .nan => .nan
  | .inf => .inf
  | .ninf => .ninf
  | .str s => .str s
  | .arr xs ps => .arr (structuredCloneL xs) (structuredCloneP ps)
  | .obj kvs => .obj (structuredCloneP kvs)

def structuredCloneL : List JVal → List JVal
  | [] => []
  | x :: xs => structuredCloneJ x :: structuredCloneL xs

def structuredCloneP : List (String × JVal) → List (String × JVal)
  | [] => []
  | (k, v) :: xs => (k, structuredCloneJ v) :: structuredCloneP xs
end

/-- Model of `DocumentChangeParser.getCopyWithChange`: deep-clone, then apply
in place. -/
def getCopyWithChange (obj : JVal) (dc : DocumentChange)
    (validatePaths : Bool) : Except ApplyErr JVal :=
  applyChange (structuredCloneJ obj) dc validatePaths

/-- Model of `DocumentChangeParser.getCopyWithChanges`. -/
def getCopyWithChanges (obj : JVal) (dcs : List DocumentChange)
    (validatePaths : Bool) : Except ApplyErr JVal :=
  applyChanges (structuredCloneJ obj) dcs validatePaths

/-! ## Spec-side path grammar (from the specification, section 3)

Transcription of the informal EBNF:
```
path      := segment ('.' segment)* ('@' index)?
segment   := identifier ('[' index ']')?
identifier:= [A-Za-z_$][A-Za-z0-9_$]*
index     := '-'? digit+
```
as the same kind of deterministic matcher as `isValidPropertyPath`.  The one
point where it differs from the source regex is the bracket form: the grammar
allows a signed index inside `[...]`, the regex only digits. -/

def specEatIndex : List Char → Option (List Char)
  | '-' :: cs => eatDigits1 cs
  | cs => eatDigits1 cs

def specEatBracketOpt : List Char → Option (List Char)
  | '[' :: cs =>
    (match specEatIndex cs with
     | some (']' :: r) => some r
     | _ => none)
  | cs => some cs

def specEatSegment (cs : List Char) : Option (List Char) :=
  match eatIdent cs with
  | some r => specEatBracketOpt r
  | none => none

def specEatDotSegments : Nat → List Char → Option (List Char)
  | _, [] => some []
  | 0, cs => some cs
  | fuel + 1, cs =>
    match cs with
    | '.' :: cs2 =>
      (match specEatSegment cs2 with
       | some r => specEatDotSegments fuel r
       | none => none)
    | _ => some cs

def specEatAtOpt : List Char → Option (List Char)
  | '@' :: cs => specEatIndex cs
  | cs => some cs

/-- Anchored full-string match of the section-3 path grammar. -/
def specPathMatch (path : String) : Bool :=
  match specEatSegment path.data with
  | none => false
  | some r =>
    match specEatDotSegments r.length r with
    | none => false
    | some r2 =>
      match specEatAtOpt r2 with
      | some [] => true
      | _ => false

/-- Section-3 grammar with the bracket index restricted to bare digits (the
amendment forced by the `"a[-1]"` counterexample). -/
def specPathMatchDigitsOnlyBracket (path : String) : Bool :=
  match eatSegment path.data with
  | none => false
  | some r =>
    match eatDotSegments r.length r with
    | none => false
    | some r2 =>
      match specEatAtOpt r2 with
      | some [] => true
      | _ => false

/-! ## Diff/Reconciliation Engine (`DiffIdentifier`) -/

/-- Records handled by the diff engine (`T extends Record<string, unknown>`):
ordered own-property association lists. -/
abbrev Rec := List (String × JVal)

/-- Model of `item[field]` on a record, as a JS value (`undefined` when the
field is absent). -/
def recGet (item : Rec) (field : String) : JVal :=
  match lookupProp item field with
  | some v => v
  | none => .undef

structure DiffConfig where
  idField : String
  nameField : String
  isDeletedField : Option String
  ignoreFields : List String

structure DiffResult where
  inserts : List Rec
  updates : List (Rec × Rec)
  processedIds : List String
deriving Repr

inductive InactiveKind where
  | ALREADY_DELETED
  | MISSING
deriving Repr, DecidableEq

structure InactiveItemError where
  itemName : String
  errorType : InactiveKind
deriving Repr, DecidableEq

/-- JS `===` on modelled values: value equality on primitives (`NaN` is not
equal to itself); distinct container expressions are never reference-equal in
the tree model, so containers compare `false` here and are handled by the
structural recursion of `deepEqual`. -/
def jsStrictEq : JVal → JVal → Bool
  | .undef, .undef => true
  | .null, .null => true
  | .bool a, .bool b => a == b
  | .num a, .num b => a == b
  | .inf, .inf => true
  | .ninf, .ninf => true
  | .str a, .str b => a == b
  | _, _ => false

/-- Own enumerable property names (`Object.keys`): for arrays the element
indices followed by the named properties. -/
def jsKeys : JVal → List String
  | .obj kvs => kvs.map (·.1)
  | .arr xs ps => ((List.range xs.length).map (fun i => toString i)) ++ ps.map (·.1)
  | _ => []

/-- Typed-object test used by `deepEqual` (`typeof x === 'object'` after the
null guards): objects and arrays. -/
def isObjectTy : JVal → Bool
  | .obj _ | .arr _ _ => true
  | _ => false

/-- Own property read for `deepEqual` (guaranteed to be called with keys from
`jsKeys`). -/
def jsOwn (v : JVal) (k : String) : JVal :=
  match v with
  | .obj kvs => recGet kvs k
  | .arr xs ps =>
    (match canonIndex k with
     | some i => (xs.get? i).getD .undef
     | none => recGet ps k)
  | _ => (.undef)

/-- Model of `DiffIdentifier.deepEqual` (fuel-based; any fuel at least the
structural depth of the first argument computes the JS result, and the
engine calls it through `deepEqualJS` with sufficient fuel). -/
def deepEqualFuel : Nat → JVal → JVal → List String → Bool
  | 0, a, b, _ => jsStrictEq a b
  | fuel + 1, a, b, ignoreFields =>
    if jsStrictEq a b then true
    else if !(isObjectTy a && isObjectTy b) then false
    else
      let keys1 := (jsKeys a).filter (fun k => !ignoreFields.contains k)
      let keys2 := (jsKeys b).filter (fun k => !ignoreFields.contains k)
      if keys1.length != keys2.length then false
      else keys1.all (fun k =>
        keys2.contains k && deepEqualFuel fuel (jsOwn a k) (jsOwn b k) ignoreFields)

/-- Model of `DiffIdentifier.deepEqual`: `jsize a` dominates the structural
depth of `a`, so the fuel of `deepEqualFuel` never runs out before the
recursion bottoms out on primitives, exactly as in the source. -/
def deepEqualJS (a b : JVal) (ignoreFields : List String) : Bool :=
  deepEqualFuel (jsize a) a b ignoreFields

/-- Insertion into the processed-id `Set` (insertion-ordered, duplicates
ignored). -/
def setAdd (l : List String) (s : String) : List String :=
  if l.contains s then l else l ++ [s]

/-- Map insertion with `Map.set` semantics: overwrite in place, else append. -/
def mapSet : List (String × Rec) → String → Rec → List (String × Rec)
  | [], k, v => [(k, v)]
  | (k0, v0) :: m, k, v =>
    if k0 = k then (k, v) :: m else (k0, v0) :: mapSet m k v

/-- Lookup map of existing records keyed by `String(item[nameField])`
(`Map.set` overwrite: a later record with the same name replaces the
earlier one). -/
def buildExistingMap (existingItems : List Rec) (nameField : String) :
    List (String × Rec) :=
  existingItems.foldl (fun m item => mapSet m (jsToString (recGet item nameField)) item) []

def mapGet (m : List (String × Rec)) (k : String) : Option Rec :=
  (m.find? (fun p => p.1 == k)).map (·.2)

/-- Resurrection test on one incoming item: `isDeletedField` configured (a
truthy field name), incoming not marked deleted, existing marked deleted. -/
def resurrectionOffense (cfg : DiffConfig) (oldItem item : Rec) : Bool :=
  match cfg.isDeletedField with
  | some df => df ≠ "" && !(recGet item df).truthy && (recGet oldItem df).truthy
  | none => false

/-- Loop body of `identifyChanges` over the incoming items (the `Map` /
plain-object incoming collection is modelled by its value list, in iteration
order). -/
def identifyChangesGo (cfg : DiffConfig) (emap : List (String × Rec)) :
    List Rec → DiffResult → Except InactiveItemError DiffResult
  | [], st => .ok st
  | item :: rest, st =>
    let name := recGet item cfg.nameField
    if !name.truthy then
      -- console.warn and skip
      identifyChangesGo cfg emap rest st
    else
      let nameStr := jsToString name
      let pids := setAdd st.processedIds (jsToString (recGet item cfg.idField))
      match mapGet emap nameStr with
      | some oldItem =>
        if resurrectionOffense cfg oldItem item then
          .error ⟨nameStr, .ALREADY_DELETED⟩
        else if !deepEqualJS (.obj oldItem) (.obj item) cfg.ignoreFields then
          identifyChangesGo cfg emap rest
            { st with updates := st.updates ++ [(oldItem, item)], processedIds := pids }
        else
          identifyChangesGo cfg emap rest { st with processedIds := pids }
      | none =>
        identifyChangesGo cfg emap rest
          { st with inserts := st.inserts ++ [item], processedIds := pids }

/-- Model of `DiffIdentifier.identifyChanges`. -/
def identifyChanges (newItems : List Rec) (existingItems : List Rec)
    (cfg : DiffConfig) : Except InactiveItemError DiffResult :=
  identifyChangesGo cfg (buildExistingMap existingItems cfg.nameField) newItems
    ⟨[], [], []⟩

/-- Record reported by `identifyInactive` (`{name}`). -/
structure InactiveRec where
  name : String
deriving Repr, DecidableEq

/-- Soft-delete test of the diff engine: `isDeletedField && item[isDeletedField]`
(a configured field name is itself tested for truthiness, so the empty string
counts as unconfigured). -/
def softDeleted (cfg : DiffConfig) (item : Rec) : Bool :=
  match cfg.isDeletedField with
  | some df => df ≠ "" && (recGet item df).truthy
  | none => false

/-- The stringified, trimmed id of a record, as tested against `processedIds`
by `identifyInactive`. -/
def trimmedId (cfg : DiffConfig) (item : Rec) : String :=
  trimWs (jsToString (recGet item cfg.idField))

/-- Loop body of `identifyInactive`. -/
def identifyInactiveGo (cfg : DiffConfig) (processedIds : List String)
    (throwOnMissing : Bool) :
    List Rec → List InactiveRec → Except InactiveItemError (List InactiveRec)
  | [], acc => .ok acc
  | item :: rest, acc =>
    if processedIds.contains (trimmedId cfg item) then
      identifyInactiveGo cfg processedIds throwOnMissing rest acc
    else
      let name := jsToString (recGet item cfg.nameField)
      if softDeleted cfg item then
        identifyInactiveGo cfg processedIds throwOnMissing rest (acc ++ [⟨name⟩])
      else if throwOnMissing then
        .error ⟨name, .MISSING⟩
      else
        identifyInactiveGo cfg processedIds throwOnMissing rest (acc ++ [⟨name⟩])

/-- Model of `DiffIdentifier.identifyInactive` (the `throwOnMissing` argument
is the resolved truthiness of `options.throwOnMissing`, whose default is
`true`). -/
def identifyInactive (existingItems : List Rec) (processedIds : List String)
    (cfg : DiffConfig) (throwOnMissing : Bool) :
    Except InactiveItemError (List InactiveRec) :=
  identifyInactiveGo cfg processedIds throwOnMissing existingItems []

/-! ## Character-class facts -/

theorem char_valNat_ne {c d : Char} (h : c.val.toNat ≠ d.val.toNat) : c ≠ d :=
  fun he => h (congrArg (fun x => Char.toNat x) he)

theorem identStartChar_ranges (c : Char) (h : isIdentStartChar c = true) :
    (97 ≤ c.val.toNat ∧ c.val.toNat ≤ 122) ∨
    (65 ≤ c.val.toNat ∧ c.val.toNat ≤ 90) ∨
    c.val.toNat = 95 ∨ c.val.toNat = 36 := by
  simp only [isIdentStartChar, Bool.or_eq_true, Bool.and_eq_true,
    decide_eq_true_eq] at h
  rcases h with ((⟨h1, h2⟩ | ⟨h1, h2⟩) | h) | h
  · left
    have h1' : ('a').val.toNat ≤ c.val.toNat := h1
    have h2' : c.val.toNat ≤ ('z').val.toNat := h2
    have e1 : ('a').val.toNat = 97 := rfl
    have e2 : ('z').val.toNat = 122 := rfl
    omega
  · right; left
    have h1' : ('A').val.toNat ≤ c.val.toNat := h1
    have h2' : c.val.toNat ≤ ('Z').val.toNat := h2
    have e1 : ('A').val.toNat = 65 := rfl
    have e2 : ('Z').val.toNat = 90 := rfl
    omega
  · subst h; right; right; left; rfl
  · subst h; right; right; right; rfl

theorem identChar_ranges (c : Char) (h : isIdentChar c = true) :
    (97 ≤ c.val.toNat ∧ c.val.toNat ≤ 122) ∨
    (65 ≤ c.val.toNat ∧ c.val.toNat ≤ 90) ∨
    c.val.toNat = 95 ∨ c.val.toNat = 36 ∨
    (48 ≤ c.val.toNat ∧ c.val.toNat ≤ 57) := by
  simp only [isIdentChar, Bool.or_eq_true] at h
  rcases h with h | h
  · rcases identStartChar_ranges c h with h | h | h | h
    · exact Or.inl h
    · exact Or.inr (Or.inl h)
    · exact Or.inr (Or.inr (Or.inl h))
    · exact Or.inr (Or.inr (Or.inr (Or.inl h)))
  · right; right; right; right
    simp only [Char.isDigit, Bool.and_eq_true, decide_eq_true_eq] at h
    obtain ⟨h1, h2⟩ := h
    have h1' : (48 : UInt32).toNat ≤ c.val.toNat := h1
    have h2' : c.val.toNat ≤ (57 : UInt32).toNat := h2
    have e1 : (48 : UInt32).toNat = 48 := rfl
    have e2 : (57 : UInt32).toNat = 57 := rfl
    omega

theorem identChar_not_ws (c : Char) (h : isIdentChar c = true) :
    isWsChar c = false := by
  have e1 : (' ').val.toNat = 32 := rfl
  have e2 : ('\t').val.toNat = 9 := rfl
  have e3 : ('\n').val.toNat = 10 := rfl
  have e4 : ('\r').val.toNat = 13 := rfl
  rcases identChar_ranges c h with h | h | h | h | h <;>
  · have n1 : c ≠ ' ' := char_valNat_ne (by omega)
    have n2 : c ≠ '\t' := char_valNat_ne (by omega)
    have n3 : c ≠ '\n' := char_valNat_ne (by omega)
    have n4 : c ≠ '\r' := char_valNat_ne (by omega)
    simp [isWsChar, n1, n2, n3, n4]

theorem char_not_digit_of_valNat (c : Char) (h : ¬(48 ≤ c.val.toNat ∧ c.val.toNat ≤ 57)) :
    c.isDigit = false := by
  simp only [Char.isDigit, Bool.and_eq_false_iff]
  by_cases h1 : (48 : UInt32) ≤ c.val
  · right
    simp only [decide_eq_false_iff_not]
    intro h2
    have h1' : (48 : UInt32).toNat ≤ c.val.toNat := h1
    have h2' : c.val.toNat ≤ (57 : UInt32).toNat := h2
    exact h ⟨h1', h2'⟩
  · left
    simp only [decide_eq_false_iff_not]
    exact h1

theorem identStartChar_not_digit (c : Char) (h : isIdentStartChar c = true) :
    c.isDigit = false := by
  apply char_not_digit_of_valNat
  rcases identStartChar_ranges c h with h | h | h | h <;> omega

theorem dropWhile_all_neg {α} (p : α → Bool) :
    ∀ l : List α, l.all (fun c => !p c) = true → l.dropWhile p = l
  | [], _ => rfl
  | a :: l, h => by
    simp only [List.all_cons, Bool.and_eq_true, Bool.not_eq_true'] at h
    simp [List.dropWhile_cons, h.1]

theorem trimWs_of_no_ws (s : String)
    (h : s.data.all (fun c => !isWsChar c) = true) : trimWs s = s := by
  unfold trimWs
  rw [dropWhile_all_neg _ _ h]
  rw [dropWhile_all_neg _ _ (by simpa using h)]
  simp

/-! ## Claim C1: the path grammar of the specification vs the source regex -/

theorem specEatAtOpt_eq_eatAtIndexOpt : specEatAtOpt = eatAtIndexOpt := by
  funext cs
  cases cs with
  | nil => rfl
  | cons c cs =>
    by_cases h : c = '@'
    · subst h
      simp only [specEatAtOpt, eatAtIndexOpt, specEatIndex]
      cases cs with
      | nil => rfl
      | cons c2 cs2 =>
        by_cases h2 : c2 = '-'
        · subst h2; rfl
        · simp [h2]
    · simp [specEatAtOpt, eatAtIndexOpt, h]

/-- Claim C1, counterexample: the claim asserts (per the section-3 grammar)
that any segment whose bracket index is `'-'? digit+` is accepted, but the
source regex only allows bare digits inside brackets: `"a[-1]"` is generated
by the grammar and rejected by `isValidPropertyPath`. -/
theorem c1_bracket_minus_counterexample :
    specPathMatch "a[-1]" = true ∧ isValidPropertyPath "a[-1]" = false :=
  ⟨rfl, rfl⟩

/-- Claim C1 (amended): `isValidPropertyPath` is an anchored full-string
match of the section-3 grammar with the bracket index restricted to bare
digits (`'[' digit+ ']'`); the trailing `@` index still admits a sign.  All
the acceptance/rejection examples of the claim hold. -/
theorem c1_isValidPropertyPath_grammar :
    (∀ s, isValidPropertyPath s = specPathMatchDigitsOnlyBracket s) ∧
    isValidPropertyPath "name" = true ∧
    isValidPropertyPath "user.name" = true ∧
    isValidPropertyPath "items[0]" = true ∧
    isValidPropertyPath "items[0].name" = true ∧
    isValidPropertyPath "items@0" = true ∧
    isValidPropertyPath "user.items@0" = true ∧
    isValidPropertyPath "items@-1" = true ∧
    isValidPropertyPath "" = false ∧
    isValidPropertyPath "123" = false ∧
    isValidPropertyPath ".name" = false ∧
    isValidPropertyPath "name." = false := by
  refine ⟨?_, rfl, rfl, rfl, rfl, rfl, rfl, rfl, rfl, rfl, rfl, rfl⟩
  intro s
  unfold isValidPropertyPath specPathMatchDigitsOnlyBracket
  rw [specEatAtOpt_eq_eatAtIndexOpt]

/-! ## Claim C8: `getPropertyValue` and its default -/

/-- Claim C8, counterexample: on `{a: null}` the path `"a"` fully resolves —
no intermediate segment is absent or null, the stored value is `null` — yet
`getPropertyValue` returns the default (the trailing `?? defaultValue` also
captures a nullish leaf), contradicting "returns the default exactly when
some intermediate segment along the path is absent or null". -/
theorem c8_nullish_leaf_counterexample :
    getWalk (.obj [("a", .null)]) (parsePath "a") = some .null ∧
    getPropertyValue (.obj [("a", .null)]) "a" (some (.str "d")) =
      some (.str "d") ∧
    (some (JVal.str "d") : Option JVal) ≠ some JVal.null := by
  refine ⟨rfl, rfl, by simp⟩

/-- Claim C8 (amended): `getPropertyValue` returns the value stored at the
path, and returns the default exactly when the walk breaks off at an absent
or null intermediate segment **or the value stored at the path is itself
nullish** (`undefined`/`null`); it never throws for missing paths (it is a
total function of its inputs). -/
theorem c8_getPropertyValue_default :
    ∀ (root : JVal) (path : String) (dflt : Option JVal),
    (∀ v, getWalk root (parsePath path) = some v → v.isNullish = false →
        getPropertyValue root path dflt = some v) ∧
    (getWalk root (parsePath path) = none →
        getPropertyValue root path dflt = dflt) ∧
    (∀ v, getWalk root (parsePath path) = some v → v.isNullish = true →
        getPropertyValue root path dflt = dflt) := by
  intro root path dflt
  unfold getPropertyValue
  refine ⟨?_, ?_, ?_⟩ <;> intros <;> simp_all

/-- Witness for C8 at concrete inputs: a missing intermediate yields the
default, a fully-resolved non-nullish path yields the stored value. -/
theorem c8_getPropertyValue_default_witness :
    getPropertyValue (.obj []) "a.b" (some (.str "d")) = some (.str "d") ∧
    getPropertyValue (.obj [("a", .obj [("b", .num 5)])]) "a.b" none =
      some (.num 5) :=
  ⟨(c8_getPropertyValue_default (.obj []) "a.b" (some (.str "d"))).2.1 rfl,
   (c8_getPropertyValue_default (.obj [("a", .obj [("b", .num 5)])]) "a.b"
      none).1 (.num 5) rfl rfl⟩

theorem string_eq_of_data {a b : String} (h : a.data = b.data) : a = b := by
  cases a; cases b; exact congrArg String.mk h

theorem resolveArrayTarget_snd (obj : JVal) (ap : String) :
    (resolveArrayTarget obj ap).2 = parsePath ap := by
  unfold resolveArrayTarget
  dsimp only
  split <;> (try split) <;> rfl

/-- Claim C4 (amended): when the array path resolves to an array, the engine
never rejects the index: index exactly `-1` appends; any index at or beyond
the array length appends (splice clamps the start to the length); an index
`0 <= i <= length` inserts before position `i`; any other negative index `i`
inserts before position `length + i` clamped to `0` (JS splice negative-start
semantics) — it does **not** append. -/
theorem c4_insertAtIndex_semantics
    (obj : JVal) (path ap istr : String) (i : Int) (xs : List JVal)
    (ps : List (String × JVal)) (v : JVal)
    (hsplit : splitAtSign path = (ap, some istr))
    (hidx : jsParseInt (some istr) = some i)
    (hres : (resolveArrayTarget obj ap).1 = some (.arr xs ps)) :
    ∃ xs', insertAtIndex obj path v =
        some (replaceAt obj (parsePath ap) (.arr xs' ps)) ∧
      (i = -1 → xs' = xs ++ [v]) ∧
      ((xs.length : Int) ≤ i → xs' = xs ++ [v]) ∧
      (0 ≤ i → i ≤ (xs.length : Int) →
        xs' = xs.take i.toNat ++ [v] ++ xs.drop i.toNat) ∧
      (i < 0 → i ≠ -1 →
        xs' = xs.take (xs.length - (-i).toNat) ++ [v] ++
          xs.drop (xs.length - (-i).toNat)) := by
  have hpair : resolveArrayTarget obj ap = (some (.arr xs ps), parsePath ap) :=
    Prod.ext hres (resolveArrayTarget_snd obj ap)
  unfold insertAtIndex
  rw [hsplit]
  simp only [hidx, hpair]
  by_cases hi : i = -1
  · subst hi
    refine ⟨xs ++ [v], by simp, fun _ => rfl, ?_, ?_, ?_⟩
    · intro h; omega
    · intro h; omega
    · intro _ h; omega
  · have : (some i = some (-1)) = False := by simp [hi]
    refine ⟨spliceInsert xs (.int i) v, by simp [hi], fun h => absurd h hi, ?_, ?_, ?_⟩
    · intro h
      have h0 : ¬ i < 0 := by omega
      have : i.toNat ≥ xs.length := by omega
      simp [spliceInsert, spliceStart, h0, Nat.min_eq_right this]
    · intro h0 hle
      have h0' : ¬ i < 0 := by omega
      have : i.toNat ≤ xs.length := by omega
      simp [spliceInsert, spliceStart, h0', Nat.min_eq_left this]
    · intro hlt _
      simp [spliceInsert, spliceStart, hlt]

theorem spliceRemove_nan (xs : List JVal) : spliceRemove xs .nan = xs.drop 1 := by
  cases xs <;> simp [spliceRemove, spliceStart]

theorem ident_all_not_ws (k : String) (c : Char) (cs : List Char)
    (hk : k.data = c :: cs) (hstart : isIdentStartChar c = true)
    (hcs : cs.all isIdentChar = true) :
    k.data.all (fun c => !isWsChar c) = true := by
  rw [hk]
  simp only [List.all_cons, List.all_eq_true, Bool.and_eq_true] at hcs ⊢
  constructor
  · simp [identChar_not_ws c (by simp [isIdentChar, hstart])]
  · intro x hx
    simp [identChar_not_ws x (hcs x hx)]

theorem decimalToInt_head_not (c : Char) (cs : List Char)
    (hdig : c.isDigit = false) (hdot : c ≠ '.') :
    decimalToInt (c :: cs) = none := by
  unfold decimalToInt
  simp only [List.takeWhile_cons, List.dropWhile_cons, hdig]
  simp only [Bool.false_eq_true, if_false]
  split
  · rename_i heq
    exact absurd heq (by simp)
  · rename_i frac heq
    injection heq with h1 h2
    exact absurd h1 hdot
  · rfl

theorem jsNumber_ident_nan (k : String) (c : Char) (cs : List Char)
    (hk : k.data = c :: cs) (hstart : isIdentStartChar c = true)
    (hcs : cs.all isIdentChar = true) (hInf : k ≠ "Infinity") :
    jsNumber k = .nan := by
  have htrim : trimWs k = k :=
    trimWs_of_no_ws k (ident_all_not_ws k c cs hk hstart hcs)
  have hnd : c ≠ '-' := by
    intro he; subst he; exact absurd hstart (by decide)
  have hnp : c ≠ '+' := by
    intro he; subst he; exact absurd hstart (by decide)
  have hndot : c ≠ '.' := by
    intro he; subst he; exact absurd hstart (by decide)
  have hdig : c.isDigit = false := identStartChar_not_digit c hstart
  have hne_inf : ¬(c :: cs = "Infinity".data) := by
    intro he; exact hInf (string_eq_of_data (hk.trans he))
  have hne_pinf : ¬(c :: cs = "+Infinity".data) := by
    intro he
    have : c = '+' := by
      have := congrArg List.head? he
      simpa using this
    exact hnp this
  have hne_ninf : ¬(c :: cs = "-Infinity".data) := by
    intro he
    have : c = '-' := by
      have := congrArg List.head? he
      simpa using this
    exact hnd this
  unfold jsNumber
  rw [htrim, hk]
  simp only [hne_inf, hne_pinf, hne_ninf, List.cons_ne_nil, decide_False,
    Bool.or_self, Bool.false_eq_true, if_false, ite_false, not_false_eq_true]
  split
  · rename_i rest heq
    injection heq with h1 h2
    exact absurd h1 hnd
  · rename_i rest heq
    injection heq with h1 h2
    exact absurd h1 hnp
  · rw [decimalToInt_head_not c cs hdig hndot]

theorem delWalk_append (k : String) :
    ∀ (ks : List String) (root t : JVal),
      getWalk root ks = some t → t.isNullish = false →
      delWalk root (ks ++ [k]) =
        (delFinal t k).map (fun u => replaceAt root ks u)
  | [], root, t, h, hnn => by
    simp only [getWalk] at h
    cases h
    simp [delWalk, replaceAt]
  | k0 :: ks', root, t, h, hnn => by
    simp only [getWalk] at h
    by_cases hr : root.isNullish
    · simp [hr] at h
    · simp only [hr] at h
      simp only [Bool.false_eq_true, if_false] at h
      cases hk : getKey root k0 with
      | none => rw [hk] at h; simp at h
      | some w =>
        rw [hk] at h
        dsimp only at h
        have hw : w.isNullish = false := by
          cases ks' with
          | nil => simp only [getWalk] at h; cases h; exact hnn
          | cons a b =>
            simp only [getWalk] at h
            by_cases hwn : w.isNullish
            · simp [hwn] at h
            · exact Bool.eq_false_iff.mpr hwn
        cases ks' with
        | nil =>
          simp only [getWalk] at h
          cases h
          simp only [List.nil_append, List.cons_append]
          show delWalk root [k0, k] = _
          simp only [delWalk, hk, hw]
          simp [replaceAt, hk]
        | cons k2 ks'' =>
          have ih := delWalk_append k (k2 :: ks'') w t h hnn
          simp only [List.cons_append]
          show delWalk root (k0 :: (k2 :: ks'') ++ [k]) = _
          simp only [delWalk, hk, hw]
          simp only [Bool.false_eq_true, if_false, List.cons_append,
            List.append_eq]
          rw [List.cons_append] at ih
          rw [ih]
          simp only [replaceAt, hk]
          cases delFinal t k <;> simp [replaceAt, hk]

/-- Claim C10 (amended): when the final container is an array and the final
key is a non-numeric identifier **other than `"Infinity"`**, `deleteProperty`
removes the array's first element: the key coerces to `NaN` under `Number`,
and `splice(NaN, 1)` converts the start to `0`.  (`"Infinity"` is the one
identifier that coerces to a number instead — see the counterexample.) -/
theorem c10_deleteProperty_non_numeric_key
    (root : JVal) (path : String) (ks : List String) (k : String)
    (xs : List JVal) (ps : List (String × JVal)) (c : Char) (cs : List Char)
    (hparse : parsePath path = ks ++ [k])
    (hwalk : getWalk root ks = some (.arr xs ps))
    (hk : k.data = c :: cs) (hstart : isIdentStartChar c = true)
    (hcs : cs.all isIdentChar = true) (hInf : k ≠ "Infinity") :
    deleteProperty root path =
      some (replaceAt root ks (.arr (xs.drop 1) ps)) := by
  unfold deleteProperty
  rw [hparse, delWalk_append k ks root (.arr xs ps) hwalk rfl]
  simp only [delFinal, jsNumber_ident_nan k c cs hk hstart hcs hInf,
    spliceRemove_nan, Option.map_some]
  rfl

/-- Witness for C10: deleting `"items.x"` on `{items:["a","b"]}` removes the
first element, leaving `{items:["b"]}`. -/
theorem c10_witness :
    deleteProperty (.obj [("items", .arr [.str "a", .str "b"] [])]) "items.x" =
      some (.obj [("items", .arr [.str "b"] [])]) := by
  have h := c10_deleteProperty_non_numeric_key
    (.obj [("items", .arr [.str "a", .str "b"] [])]) "items.x" ["items"] "x"
    [.str "a", .str "b"] [] 'x' [] rfl rfl rfl rfl rfl (by decide)
  rw [h]
  rfl

/-- Claim C10, counterexample: the claim quantifies over every non-numeric
identifier, but the identifier `"Infinity"` coerces to the number `Infinity`,
whose splice start clamps to the array length, so `deleteProperty` leaves the
array unchanged instead of removing its first element. -/
theorem c10_infinity_counterexample :
    deleteProperty (.obj [("items", .arr [.str "a", .str "b"] [])])
      "items.Infinity" =
      some (.obj [("items", .arr [.str "a", .str "b"] [])]) ∧
    (JVal.arr [.str "a", .str "b"] [] : JVal) ≠ .arr [.str "b"] [] :=
  ⟨rfl, by simp⟩

/-- Claim C4, counterexample: with index `-2` on `{items:["a","b"]}` the
element is inserted at position `length - 2 = 0` (splice negative-start
semantics), yielding `["v","a","b"]` — not appended at the end as the claim
states for every negative index. -/
theorem c4_negative_append_counterexample :
    insertAtIndex (.obj [("items", .arr [.str "a", .str "b"] [])]) "items@-2"
      (.str "v") =
      some (.obj [("items", .arr [.str "v", .str "a", .str "b"] [])]) ∧
    (JVal.arr [.str "v", .str "a", .str "b"] [] : JVal) ≠
      .arr [.str "a", .str "b", .str "v"] [] :=
  ⟨rfl, by simp⟩

/-- Witness for C4: appending with index `-1` and inserting before index `0`
on `{items:["a","b"]}`. -/
theorem c4_insertAtIndex_semantics_witness :
    insertAtIndex (.obj [("items", .arr [.str "a", .str "b"] [])]) "items@-1"
      (.str "v") =
      some (.obj [("items", .arr [.str "a", .str "b", .str "v"] [])]) := by
  obtain ⟨xs', h1, h2, -, -, -⟩ := c4_insertAtIndex_semantics
    (.obj [("items", .arr [.str "a", .str "b"] [])]) "items@-1" "items" "-1"
    (-1) [.str "a", .str "b"] [] (.str "v") (by rfl) (by rfl) (by rfl)
  rw [h1, h2 rfl]
  rfl

theorem lookupProp_setProp (ps : List (String × JVal)) (k : String) (v : JVal) :
    lookupProp (setProp ps k v) k = some v := by
  induction ps with
  | nil => simp [setProp, lookupProp]
  | cons p ps ih =>
    obtain ⟨k0, v0⟩ := p
    by_cases h : k0 = k
    · subst h; simp [setProp, lookupProp]
    · simp [setProp, lookupProp, h, List.find?] at ih ⊢
      exact ih

theorem arraySet_get (xs : List JVal) (i : Nat) (v : JVal) :
    (arraySet xs i v).get? i = some v := by
  unfold arraySet
  by_cases h : i < xs.length
  · simp only [h, if_true, List.get?_eq_getElem?]
    exact List.getElem?_set_self h
  · simp only [h, if_false, ite_false, List.get?_eq_getElem?]
    rw [List.append_assoc]
    rw [List.getElem?_append_right (by omega)]
    have hlen : (List.replicate (i - xs.length) JVal.undef).length = i - xs.length := by simp
    rw [List.getElem?_append_right (by omega)]
    simp [hlen]

theorem arraySet_getElem (xs : List JVal) (i : Nat) (v : JVal) :
    (arraySet xs i v)[i]? = some v := by
  have h := arraySet_get xs i v
  simpa [List.get?_eq_getElem?] using h

theorem getKey_arr_length (xs : List JVal) (ps : List (String × JVal)) :
    getKey (.arr xs ps) "length" = some (.num xs.length) := by
  simp [getKey, canonIndex]

theorem setKey_getKey_of_nullish (v : JVal) (k : String) (val w : JVal)
    (hnul : getKey v k = none ∨ ∃ c, getKey v k = some c ∧ c.isNullish = true)
    (hset : setKey v k val = some w) :
    getKey w k = some val := by
  cases v with
  | obj kvs =>
    simp only [setKey, Option.some.injEq] at hset
    subst hset
    simp [getKey, lookupProp_setProp]
  | arr xs ps =>
    simp only [setKey] at hset
    cases hc : canonIndex k with
    | some i =>
      rw [hc] at hset
      simp only [Option.some.injEq] at hset
      subst hset
      simp [getKey, hc, arraySet_getElem]
    | none =>
      rw [hc] at hset
      by_cases hl : k = "length"
      · subst hl
        rcases hnul with h | ⟨c, h, hcn⟩
        · rw [getKey_arr_length] at h; exact absurd h (by simp)
        · rw [getKey_arr_length] at h
          cases h
          simp [JVal.isNullish] at hcn
      · simp only [hl, if_false, ite_false, Option.some.injEq] at hset
        subst hset
        simp [getKey, hc, hl, lookupProp_setProp]
  | _ => simp [setKey] at hset

theorem setWalk_kind (val : JVal) :
    ∀ (ks : List String) (v w : JVal), ks ≠ [] →
      setWalk v ks val = some w →
      ((∀ xs ps, v = .arr xs ps → ∃ xs' ps', w = .arr xs' ps') ∧
       (∀ kvs, v = .obj kvs → ∃ kvs', w = .obj kvs'))
  | [], _, _, h, _ => absurd rfl h
  | [k], v, w, _, hset => by
    simp only [setWalk] at hset
    constructor
    · intro xs ps hv
      subst hv
      simp only [setKey] at hset
      rcases hc : canonIndex k with _ | i
      · rw [hc] at hset
        by_cases hl : k = "length"
        · simp only [hl, if_true, ite_true] at hset
          cases val <;> simp at hset <;>
            first
              | exact ⟨_, _, hset.2.symm⟩
              | exact ⟨_, _, hset.symm⟩
        · simp only [hl, if_false, ite_false, Option.some.injEq] at hset
          exact ⟨_, _, hset.symm⟩
      · rw [hc] at hset
        simp only [Option.some.injEq] at hset
        exact ⟨_, _, hset.symm⟩
    · intro kvs hv
      subst hv
      simp only [setKey, Option.some.injEq] at hset
      exact ⟨_, hset.symm⟩
  | k :: k2 :: ks, v, w, _, hset => by
    simp only [setWalk] at hset
    cases hsub : setWalk
        (match getKey v k with
         | some c => if c.isNullish = true then freshFor k2 else c
         | none => freshFor k2) (k2 :: ks) val with
    | none => rw [hsub] at hset; simp at hset
    | some sub =>
      rw [hsub] at hset
      constructor
      · intro xs ps hv
        subst hv
        simp only [setKey] at hset
        rcases hc : canonIndex k with _ | i
        · rw [hc] at hset
          by_cases hl : k = "length"
          · simp only [hl, if_true, ite_true] at hset
            cases sub <;> simp at hset <;>
              first
                | exact ⟨_, _, hset.2.symm⟩
                | exact ⟨_, _, hset.symm⟩
          · simp only [hl, if_false, ite_false, Option.some.injEq] at hset
            exact ⟨_, _, hset.symm⟩
        · rw [hc] at hset
          simp only [Option.some.injEq] at hset
          exact ⟨_, _, hset.symm⟩
      · intro kvs hv
        subst hv
        simp only [setKey, Option.some.injEq] at hset
        exact ⟨_, hset.symm⟩

/-- Claim C2: while walking the keys of a set, whenever the value stored at
an intermediate key is absent (`undefined`) or `null`, the engine creates the
container at that step, choosing an array when the next key is a
purely-numeric token and a plain object otherwise — and consequently
`set({}, "items.0.name", "first")` yields `{items:[{name:"first"}]}`. -/
theorem c2_auto_vivification :
    (∀ (v : JVal) (k k2 : String) (ks : List String) (value w : JVal),
      (getKey v k = none ∨ ∃ c, getKey v k = some c ∧ c.isNullish = true) →
      setWalk v (k :: k2 :: ks) value = some w →
      ∃ sub, getKey w k = some sub ∧
        (isNumericToken k2 = true → ∃ xs ps, sub = .arr xs ps) ∧
        (isNumericToken k2 = false → ∃ kvs, sub = .obj kvs)) ∧
    setPropertyValue (.obj []) "items.0.name" (.str "first") =
      some (.obj [("items", .arr [.obj [("name", .str "first")]] [])]) := by
  constructor
  · intro v k k2 ks value w hnul hset
    simp only [setWalk] at hset
    have hchild : (match getKey v k with
        | some c => if c.isNullish = true then freshFor k2 else c
        | none => freshFor k2) = freshFor k2 := by
      rcases hnul with h | ⟨c, h, hcn⟩
      · rw [h]
      · rw [h]
        dsimp only
        rw [hcn]
        simp
    rw [hchild] at hset
    cases hsub : setWalk (freshFor k2) (k2 :: ks) value with
    | none => rw [hsub] at hset; simp at hset
    | some sub =>
      rw [hsub] at hset
      refine ⟨sub, setKey_getKey_of_nullish v k sub w hnul hset, ?_, ?_⟩
      · intro hnum
        have hfresh : freshFor k2 = .arr [] [] := by simp [freshFor, hnum]
        rw [hfresh] at hsub
        exact (setWalk_kind value (k2 :: ks) (.arr [] []) sub (by simp) hsub).1
          [] [] rfl
      · intro hnum
        have hfresh : freshFor k2 = .obj [] := by simp [freshFor, hnum]
        rw [hfresh] at hsub
        exact (setWalk_kind value (k2 :: ks) (.obj []) sub (by simp) hsub).2
          [] rfl
  · rfl

/-- Witness for C2: in the result of the concrete example the key `"items"`
holds a container that is an array (the next key `"0"` is numeric). -/
theorem c2_auto_vivification_witness :
    ∃ sub,
      getKey (.obj [("items", .arr [.obj [("name", .str "first")]] [])])
        "items" = some sub ∧
      (isNumericToken "0" = true → ∃ xs ps, sub = JVal.arr xs ps) ∧
      (isNumericToken "0" = false → ∃ kvs, sub = JVal.obj kvs) :=
  c2_auto_vivification.1 (.obj []) "items" "0" ["name"] (.str "first")
    (.obj [("items", .arr [.obj [("name", .str "first")]] [])])
    (Or.inl rfl) (by rfl)

def missingFromImport (cfg : DiffConfig) (pids : List String) (item : Rec) : Bool :=
  !pids.contains (trimmedId cfg item)

def inactiveName (cfg : DiffConfig) (item : Rec) : InactiveRec :=
  ⟨jsToString (recGet item cfg.nameField)⟩

theorem identifyInactiveGo_false_spec (cfg : DiffConfig) (pids : List String) :
    ∀ (existing : List Rec) (acc : List InactiveRec),
      identifyInactiveGo cfg pids false existing acc =
        .ok (acc ++ (existing.filter (missingFromImport cfg pids)).map
          (inactiveName cfg))
  | [], acc => by simp [identifyInactiveGo]
  | item :: rest, acc => by
    by_cases hm : pids.contains (trimmedId cfg item)
    · have hmiss : missingFromImport cfg pids item = false := by
        unfold missingFromImport; rw [hm]; rfl
      simp only [identifyInactiveGo, hm, if_true, ite_true]
      rw [identifyInactiveGo_false_spec cfg pids rest acc]
      rw [List.filter_cons]
      simp [hmiss]
    · have hm' : pids.contains (trimmedId cfg item) = false := by
        simpa using hm
      have hmiss : missingFromImport cfg pids item = true := by
        unfold missingFromImport; rw [hm']; rfl
      simp only [identifyInactiveGo, hm', Bool.false_eq_true, if_false,
        ite_false]
      by_cases hsd : softDeleted cfg item
      · simp only [hsd, if_true, ite_true]
        rw [identifyInactiveGo_false_spec cfg pids rest
          (acc ++ [InactiveRec.mk (jsToString (recGet item cfg.nameField))])]
        rw [List.filter_cons]
        simp [hmiss, inactiveName]
      · have hsd' : softDeleted cfg item = false := by simpa using hsd
        simp only [hsd', Bool.false_eq_true, if_false, ite_false]
        rw [identifyInactiveGo_false_spec cfg pids rest
          (acc ++ [InactiveRec.mk (jsToString (recGet item cfg.nameField))])]
        rw [List.filter_cons]
        simp [hmiss, inactiveName]

theorem identifyInactiveGo_true_ok_spec (cfg : DiffConfig) (pids : List String) :
    ∀ (existing : List Rec) (acc : List InactiveRec),
      ((existing.filter (missingFromImport cfg pids)).all (softDeleted cfg) = true) →
      identifyInactiveGo cfg pids true existing acc =
        .ok (acc ++ (existing.filter (missingFromImport cfg pids)).map
          (inactiveName cfg))
  | [], acc, _ => by simp [identifyInactiveGo]
  | item :: rest, acc, hall => by
    by_cases hm : pids.contains (trimmedId cfg item)
    · have hmiss : missingFromImport cfg pids item = false := by
        unfold missingFromImport; rw [hm]; rfl
      have hall' : ((rest.filter (missingFromImport cfg pids)).all
          (softDeleted cfg) = true) := by
        rw [List.filter_cons] at hall
        simpa [hmiss] using hall
      simp only [identifyInactiveGo, hm, if_true, ite_true]
      rw [identifyInactiveGo_true_ok_spec cfg pids rest acc hall']
      rw [List.filter_cons]
      simp [hmiss]
    · have hm' : pids.contains (trimmedId cfg item) = false := by
        simpa using hm
      have hmiss : missingFromImport cfg pids item = true := by
        unfold missingFromImport; rw [hm']; rfl
      have hall2 := hall
      rw [List.filter_cons] at hall2
      simp only [hmiss, if_true, ite_true, List.all_cons,
        Bool.and_eq_true] at hall2
      obtain ⟨hsd, hall'⟩ := hall2
      simp only [identifyInactiveGo, hm', Bool.false_eq_true, if_false,
        ite_false, hsd, if_true, ite_true]
      rw [identifyInactiveGo_true_ok_spec cfg pids rest
        (acc ++ [InactiveRec.mk (jsToString (recGet item cfg.nameField))]) hall']
      rw [List.filter_cons]
      simp [hmiss, inactiveName]

theorem identifyInactiveGo_true_error_spec (cfg : DiffConfig) (pids : List String) :
    ∀ (existing : List Rec) (acc : List InactiveRec) (item : Rec),
      ((existing.filter (missingFromImport cfg pids)).find?
         (fun it => !softDeleted cfg it) = some item) →
      identifyInactiveGo cfg pids true existing acc =
        .error ⟨(inactiveName cfg item).name, .MISSING⟩
  | [], _, item, h => by simp at h
  | it0 :: rest, acc, item, h => by
    rw [List.filter_cons] at h
    by_cases hm : pids.contains (trimmedId cfg it0)
    · have hmiss : missingFromImport cfg pids it0 = false := by
        unfold missingFromImport; rw [hm]; rfl
      simp only [hmiss] at h
      simp only [identifyInactiveGo, hm, if_true, ite_true]
      exact identifyInactiveGo_true_error_spec cfg pids rest acc item
        (by simpa using h)
    · have hm' : pids.contains (trimmedId cfg it0) = false := by
        simpa using hm
      have hmiss : missingFromImport cfg pids it0 = true := by
        unfold missingFromImport; rw [hm']; rfl
      simp only [hmiss, if_true, ite_true] at h
      by_cases hsd : softDeleted cfg it0
      · rw [List.find?_cons_of_neg _ (by simp [hsd])] at h
        simp only [identifyInactiveGo, hm', Bool.false_eq_true, if_false,
          ite_false, hsd, if_true, ite_true]
        exact identifyInactiveGo_true_error_spec cfg pids rest
          (acc ++ [InactiveRec.mk (jsToString (recGet it0 cfg.nameField))])
          item h
      · rw [List.find?_cons_of_pos _ (by simp [hsd])] at h
        cases h
        have hsd' : softDeleted cfg it0 = false := by simpa using hsd
        simp only [identifyInactiveGo, hm', hsd', Bool.false_eq_true, if_false,
          ite_false, if_true, ite_true, inactiveName]

/-- Claim C6: for every existing record whose stringified, trimmed id is
absent from `processedIds` (`missingFromImport`): with `throwOnMissing =
false` it is reported as inactive (as `{name}`) regardless of soft-delete
state; with `throwOnMissing = true` the call succeeds with the same report
when every such record is soft-deleted, and raises a Missing error naming the
first record that is missing but not soft-deleted otherwise.  Records whose
id is in `processedIds` are never reported (they are filtered out of the
result in every clause). -/
theorem c6_identifyInactive_policy (existing : List Rec) (pids : List String)
    (cfg : DiffConfig) :
    (identifyInactive existing pids cfg false =
      .ok ((existing.filter (missingFromImport cfg pids)).map
        (inactiveName cfg))) ∧
    ((existing.filter (missingFromImport cfg pids)).all (softDeleted cfg) =
        true →
      identifyInactive existing pids cfg true =
        .ok ((existing.filter (missingFromImport cfg pids)).map
          (inactiveName cfg))) ∧
    (∀ item, (existing.filter (missingFromImport cfg pids)).find?
        (fun it => !softDeleted cfg it) = some item →
      identifyInactive existing pids cfg true =
        .error ⟨jsToString (recGet item cfg.nameField), .MISSING⟩) := by
  refine ⟨?_, ?_, ?_⟩
  · simpa using identifyInactiveGo_false_spec cfg pids existing []
  · intro h
    simpa using identifyInactiveGo_true_ok_spec cfg pids existing [] h
  · intro item h
    simpa [inactiveName] using
      identifyInactiveGo_true_error_spec cfg pids existing [] item h

/-- Witness for C6 (the section-8 scenarios): an active record missing from
the import raises Missing when `throwOnMissing` and is reported as `{name}`
otherwise; a record whose id was processed is never reported. -/
theorem c6_identifyInactive_policy_witness :
    identifyInactive
      [[("id", .str "1"), ("name", .str "A"), ("isDeleted", .bool false)]]
      [] ⟨"id", "name", some "isDeleted", []⟩ true = .error ⟨"A", .MISSING⟩ ∧
    identifyInactive
      [[("id", .str "1"), ("name", .str "A"), ("isDeleted", .bool false)]]
      [] ⟨"id", "name", some "isDeleted", []⟩ false = .ok [⟨"A"⟩] ∧
    identifyInactive
      [[("id", .str "1"), ("name", .str "A"), ("isDeleted", .bool false)]]
      ["1"] ⟨"id", "name", some "isDeleted", []⟩ true = .ok [] := by
  refine ⟨?_, ?_, ?_⟩
  · have h := (c6_identifyInactive_policy
      [[("id", .str "1"), ("name", .str "A"), ("isDeleted", .bool false)]]
      [] ⟨"id", "name", some "isDeleted", []⟩).2.2
      [("id", .str "1"), ("name", .str "A"), ("isDeleted", .bool false)]
      (by simp [missingFromImport, trimmedId, recGet, lookupProp, jsToString,
        jsize, jsizeL, jsizeP, jsToStringF, trimWs, isWsChar, softDeleted,
        JVal.truthy])
    rw [h]
    simp [recGet, lookupProp, jsToString, jsize, jsizeL, jsizeP, jsToStringF]
  · have h := (c6_identifyInactive_policy
      [[("id", .str "1"), ("name", .str "A"), ("isDeleted", .bool false)]]
      [] ⟨"id", "name", some "isDeleted", []⟩).1
    rw [h]
    simp [missingFromImport, trimmedId, recGet, lookupProp, jsToString,
      jsize, jsizeL, jsizeP, jsToStringF, trimWs, isWsChar, inactiveName]
  · have h := (c6_identifyInactive_policy
      [[("id", .str "1"), ("name", .str "A"), ("isDeleted", .bool false)]]
      ["1"] ⟨"id", "name", some "isDeleted", []⟩).2.1
      (by simp [missingFromImport, trimmedId, recGet, lookupProp, jsToString,
        jsize, jsizeL, jsizeP, jsToStringF, trimWs, isWsChar])
    rw [h]
    simp [missingFromImport, trimmedId, recGet, lookupProp, jsToString,
      jsize, jsizeL, jsizeP, jsToStringF, trimWs, isWsChar]

def resurrects (cfg : DiffConfig) (emap : List (String × Rec)) (item : Rec) : Bool :=
  (recGet item cfg.nameField).truthy &&
  (match mapGet emap (jsToString (recGet item cfg.nameField)) with
   | some old => resurrectionOffense cfg old item
   | none => false)

theorem identifyChangesGo_error_iff (cfg : DiffConfig)
    (emap : List (String × Rec)) :
    ∀ (items : List Rec) (st : DiffResult),
      ((∃ e, identifyChangesGo cfg emap items st = .error e) ↔
        ∃ item ∈ items, resurrects cfg emap item = true) ∧
      (∀ e, identifyChangesGo cfg emap items st = .error e →
        e.errorType = .ALREADY_DELETED ∧
        ∃ item ∈ items, resurrects cfg emap item = true ∧
          e.itemName = jsToString (recGet item cfg.nameField))
  | [], st => by
    simp [identifyChangesGo]
  | item :: rest, st => by
    by_cases htr : (recGet item cfg.nameField).truthy
    · simp only [identifyChangesGo, htr, Bool.not_true, Bool.false_eq_true,
        if_false, ite_false]
      cases hmg : mapGet emap (jsToString (recGet item cfg.nameField)) with
      | some old =>
        cases hoff : resurrectionOffense cfg old item with
        | true =>
          simp only [hoff, if_true, ite_true]
          have hres : resurrects cfg emap item = true := by
            simp [resurrects, htr, hmg, hoff]
          constructor
          · constructor
            · intro _
              exact ⟨item, by simp, hres⟩
            · intro _
              exact ⟨⟨jsToString (recGet item cfg.nameField), .ALREADY_DELETED⟩, rfl⟩
          · intro e he
            cases he
            exact ⟨rfl, item, by simp, hres, rfl⟩
        | false =>
          simp only [hoff, Bool.false_eq_true, if_false, ite_false]
          have hres : resurrects cfg emap item = false := by
            simp [resurrects, hmg, hoff]
          by_cases hde : deepEqualJS (.obj old) (.obj item) cfg.ignoreFields
          · simp only [hde, Bool.not_true, Bool.false_eq_true, if_false,
              ite_false]
            have ih := identifyChangesGo_error_iff cfg emap rest
              { st with processedIds := setAdd st.processedIds (jsToString (recGet item cfg.idField)) }
            refine ⟨?_, ?_⟩
            · rw [ih.1]
              simp [hres]
            · intro e he
              obtain ⟨h1, it, hmem, hr, hn⟩ := ih.2 e he
              exact ⟨h1, it, by simp [hmem], hr, hn⟩
          · simp only [hde, Bool.not_false, if_true, ite_true]
            have ih := identifyChangesGo_error_iff cfg emap rest
              { st with updates := st.updates ++ [(old, item)], processedIds := setAdd st.processedIds (jsToString (recGet item cfg.idField)) }
            refine ⟨?_, ?_⟩
            · rw [ih.1]
              simp [hres]
            · intro e he
              obtain ⟨h1, it, hmem, hr, hn⟩ := ih.2 e he
              exact ⟨h1, it, by simp [hmem], hr, hn⟩
      | none =>
        have hres : resurrects cfg emap item = false := by
          simp [resurrects, hmg]
        have ih := identifyChangesGo_error_iff cfg emap rest
          { st with inserts := st.inserts ++ [item], processedIds := setAdd st.processedIds (jsToString (recGet item cfg.idField)) }
        refine ⟨?_, ?_⟩
        · rw [ih.1]
          simp [hres]
        · intro e he
          obtain ⟨h1, it, hmem, hr, hn⟩ := ih.2 e he
          exact ⟨h1, it, by simp [hmem], hr, hn⟩
    · have htr' : (recGet item cfg.nameField).truthy = false := by
        simpa using htr
      simp only [identifyChangesGo, htr', Bool.not_false, if_true, ite_true]
      have hres : resurrects cfg emap item = false := by
        simp [resurrects, htr']
      have ih := identifyChangesGo_error_iff cfg emap rest st
      refine ⟨?_, ?_⟩
      · rw [ih.1]
        simp [hres]
      · intro e he
        obtain ⟨h1, it, hmem, hr, hn⟩ := ih.2 e he
        exact ⟨h1, it, by simp [hmem], hr, hn⟩

/-- Claim C5: `identifyChanges` raises an error iff some incoming record
(with a truthy name) matches an existing record of the same name and
`isDeletedField` is configured with the incoming record not marked deleted
while the existing one is (`resurrects`); every raised error is an
`InactiveItemError` of kind ALREADY_DELETED naming such a record.  When the
error is raised no `DiffResult` is produced at all, so no insert or update is
recorded for the record and nothing is auto-approved. -/
theorem c5_resurrection_iff (newItems existing : List Rec) (cfg : DiffConfig) :
    ((∃ e, identifyChanges newItems existing cfg = .error e) ↔
      ∃ item ∈ newItems,
        resurrects cfg (buildExistingMap existing cfg.nameField) item = true) ∧
    (∀ e, identifyChanges newItems existing cfg = .error e →
      e.errorType = .ALREADY_DELETED ∧
      ∃ item ∈ newItems,
        resurrects cfg (buildExistingMap existing cfg.nameField) item = true ∧
        e.itemName = jsToString (recGet item cfg.nameField)) :=
  identifyChangesGo_error_iff cfg (buildExistingMap existing cfg.nameField)
    newItems ⟨[], [], []⟩

/-- Witness for C5 (the section-8 scenario): existing `{name:"A",
isDeleted:true}` with incoming `{name:"A", isDeleted:false}` raises
ALREADY_DELETED for "A". -/
theorem c5_resurrection_iff_witness :
    ∃ e, identifyChanges
        [[("id", .str "1"), ("name", .str "A"), ("isDeleted", .bool false)]]
        [[("id", .str "1"), ("name", .str "A"), ("isDeleted", .bool true)]]
        ⟨"id", "name", some "isDeleted", []⟩ = .error e ∧
      e.errorType = .ALREADY_DELETED ∧ e.itemName = "A" := by
  have hc := c5_resurrection_iff
    [[("id", .str "1"), ("name", .str "A"), ("isDeleted", .bool false)]]
    [[("id", .str "1"), ("name", .str "A"), ("isDeleted", .bool true)]]
    ⟨"id", "name", some "isDeleted", []⟩
  have hex := hc.1.mpr
    ⟨[("id", .str "1"), ("name", .str "A"), ("isDeleted", .bool false)],
     by simp,
     by simp [resurrects, buildExistingMap, mapSet, mapGet, recGet,
       lookupProp, jsToString, jsize, jsizeL, jsizeP, jsToStringF,
       resurrectionOffense, JVal.truthy]⟩
  obtain ⟨e, he⟩ := hex
  have h2 := hc.2 e he
  obtain ⟨hty, it, hmem, hres, hname⟩ := h2
  refine ⟨e, he, hty, ?_⟩
  simp only [List.mem_singleton] at hmem
  subst hmem
  rw [hname]
  simp [recGet, lookupProp, jsToString, jsize, jsizeL, jsizeP, jsToStringF]

end ChangeTracking

namespace ChangeTracking
mutual
theorem structuredCloneJ_id : ∀ v : JVal, structuredCloneJ v = v
  | .undef | .null | .nan | .inf | .ninf => rfl
  | .bool _ | .num _ | .str _ => rfl
  | .arr xs ps => by
    simp [structuredCloneJ, structuredCloneL_id xs, structuredCloneP_id ps]
  | .obj kvs => by simp [structuredCloneJ, structuredCloneP_id kvs]

theorem structuredCloneL_id : ∀ xs : List JVal, structuredCloneL xs = xs
  | [] => rfl
  | x :: xs => by
    simp [structuredCloneL, structuredCloneJ_id x, structuredCloneL_id xs]

theorem structuredCloneP_id : ∀ ps : List (String × JVal), structuredCloneP ps = ps
  | [] => rfl
  | (k, v) :: ps => by
    simp [structuredCloneP, structuredCloneJ_id v, structuredCloneP_id ps]
end

/-- C7: getCopyWithChange / getCopyWithChanges operate on a deep structural
clone of the input: the clone is structurally identical to the input (so the
caller's object is left structurally unchanged, every mutation happening on
the separate copy, including when application fails partway), and the result
is exactly the change application run on that clone — equivalently, on any
structurally equal object. -/
theorem c7_getCopyWith_frame :
    ∀ (o : JVal) (dc : DocumentChange) (dcs : List DocumentChange) (b : Bool),
      structuredCloneJ o = o ∧
      getCopyWithChange o dc b = applyChange (structuredCloneJ o) dc b ∧
      getCopyWithChanges o dcs b = applyChanges (structuredCloneJ o) dcs b ∧
      getCopyWithChange o dc b = applyChange o dc b ∧
      getCopyWithChanges o dcs b = applyChanges o dcs b := by
  intro o dc dcs b
  refine ⟨structuredCloneJ_id o, rfl, rfl, ?_, ?_⟩
  · unfold getCopyWithChange
    rw [structuredCloneJ_id o]
  · unfold getCopyWithChanges
    rw [structuredCloneJ_id o]
end ChangeTracking

namespace ChangeTracking
theorem setProp_idem (ps : List (String × JVal)) (k : String) (v : JVal) :
    setProp (setProp ps k v) k v = setProp ps k v := by
  induction ps with
  | nil => simp [setProp]
  | cons p ps ih =>
    obtain ⟨k0, v0⟩ := p
    by_cases h : k0 = k
    · subst h; simp [setProp]
    · simp [setProp, h, ih]

theorem set_of_get {α} : ∀ (l : List α) (i : Nat) (v : α),
    l[i]? = some v → l.set i v = l
  | [], _, _, h => by simp at h
  | a :: l, 0, v, h => by simp at h; simp [h]
  | a :: l, i + 1, v, h => by
    simp at h
    simp [List.set_cons_succ, set_of_get l i v h]

theorem arraySet_length (xs : List JVal) (i : Nat) (v : JVal) :
    (arraySet xs i v).length = max xs.length (i + 1) := by
  unfold arraySet
  by_cases h : i < xs.length
  · simp [h]; omega
  · simp [h]; omega

theorem arraySet_eq_self (l : List JVal) (i : Nat) (v : JVal)
    (h1 : i < l.length) (h2 : l[i]? = some v) : arraySet l i v = l := by
  unfold arraySet
  rw [if_pos h1]
  exact set_of_get l i v h2

theorem arraySet_idem (xs : List JVal) (i : Nat) (v : JVal) :
    arraySet (arraySet xs i v) i v = arraySet xs i v :=
  arraySet_eq_self _ i v (by rw [arraySet_length]; omega)
    (arraySet_getElem xs i v)

theorem setKey_idem (v : JVal) (k : String) (val w : JVal)
    (h : setKey v k val = some w) : setKey w k val = some w := by
  cases v with
  | obj kvs =>
    simp only [setKey, Option.some.injEq] at h
    subst h
    simp [setKey, setProp_idem]
  | arr xs ps =>
    simp only [setKey] at h
    cases hc : canonIndex k with
    | some i =>
      rw [hc] at h
      simp only [Option.some.injEq] at h
      subst h
      simp [setKey, hc, arraySet_idem]
    | none =>
      rw [hc] at h
      by_cases hl : k = "length"
      · subst hl
        simp only [if_true, ite_true] at h
        cases val with
        | num n =>
          simp only at h
          by_cases hn : 0 ≤ n
          · rw [if_pos hn] at h
            simp only [Option.some.injEq] at h
            subst h
            simp only [setKey, hc, if_true, ite_true, if_pos hn,
              Option.some.injEq]
            by_cases hle : n.toNat ≤ xs.length
            · rw [if_pos hle]
              have h2 : (xs.take n.toNat).length = n.toNat := by
                simp; omega
              have h3 : n.toNat ≤ (xs.take n.toNat).length := by omega
              rw [if_pos h3, List.take_take]
              simp
            · rw [if_neg hle]
              have h2 : (xs ++ List.replicate (n.toNat - xs.length) JVal.undef).length = n.toNat := by
                simp; omega
              have h3 : n.toNat ≤ (xs ++ List.replicate (n.toNat - xs.length) JVal.undef).length := by omega
              rw [if_pos h3]
              rw [List.take_of_length_le (by omega)]
          · rw [if_neg hn] at h; simp at h
        | undef => simp at h
        | null => simp at h
        | bool b => simp at h
        | nan => simp at h
        | inf => simp at h
        | ninf => simp at h
        | str s => simp at h
        | arr a b => simp at h
        | obj a => simp at h
      · simp only [hl, if_false, ite_false, Option.some.injEq] at h
        subst h
        simp [setKey, hc, hl, setProp_idem]
  | _ => simp [setKey] at h
end ChangeTracking

namespace ChangeTracking
theorem setKey_some_container (v : JVal) (k : String) (val w : JVal)
    (h : setKey v k val = some w) : isObjectTy w = true := by
  cases v with
  | obj kvs =>
    simp only [setKey, Option.some.injEq] at h
    subst h; rfl
  | arr xs ps =>
    simp only [setKey] at h
    cases hc : canonIndex k with
    | some i =>
      rw [hc] at h
      simp only [Option.some.injEq] at h
      subst h; rfl
    | none =>
      rw [hc] at h
      by_cases hl : k = "length"
      · subst hl
        simp only [if_true, ite_true] at h
        cases val with
        | num n =>
          dsimp only at h
          by_cases hn : 0 ≤ n
          · rw [if_pos hn] at h
            simp only [Option.some.injEq] at h
            subst h; rfl
          · rw [if_neg hn] at h
            simp at h
        | undef => simp at h
        | null => simp at h
        | bool b => simp at h
        | nan => simp at h
        | inf => simp at h
        | ninf => simp at h
        | str s => simp at h
        | arr a b => simp at h
        | obj a => simp at h
      · simp only [hl, if_false, ite_false, Option.some.injEq] at h
        subst h; rfl
  | _ => simp [setKey] at h

theorem container_not_nullish (v : JVal) (h : isObjectTy v = true) :
    v.isNullish = false := by
  cases v <;> simp_all [isObjectTy, JVal.isNullish]

theorem getKey_setKey_of_container (v : JVal) (k : String) (val w : JVal)
    (hcont : isObjectTy val = true)
    (h : setKey v k val = some w) : getKey w k = some val := by
  cases v with
  | obj kvs =>
    simp only [setKey, Option.some.injEq] at h
    subst h
    simp [getKey, lookupProp_setProp]
  | arr xs ps =>
    simp only [setKey] at h
    cases hc : canonIndex k with
    | some i =>
      rw [hc] at h
      simp only [Option.some.injEq] at h
      subst h
      simp [getKey, hc, arraySet_getElem]
    | none =>
      rw [hc] at h
      by_cases hl : k = "length"
      · subst hl
        simp only [if_true, ite_true] at h
        cases val <;> simp_all [isObjectTy]
      · simp only [hl, if_false, ite_false, Option.some.injEq] at h
        subst h
        simp [getKey, hc, hl, lookupProp_setProp]
  | _ => simp [setKey] at h

theorem setWalk_idem : ∀ (ks : List String) (v val w : JVal),
    setWalk v ks val = some w → setWalk w ks val = some w
  | [], v, val, w, h => setKey_idem v "undefined" val w h
  | [k], v, val, w, h => setKey_idem v k val w h
  | k :: k2 :: ks, v, val, w, h => by
    simp only [setWalk] at h ⊢
    cases hsub : setWalk
        (match getKey v k with
         | some c => if c.isNullish = true then freshFor k2 else c
         | none => freshFor k2) (k2 :: ks) val with
    | none => rw [hsub] at h; simp at h
    | some sub =>
      rw [hsub] at h
      have hsubc : isObjectTy sub = true := by
        cases k2ks : (k2 :: ks) with
        | nil => simp at k2ks
        | cons a b =>
          rw [k2ks] at hsub
          cases b with
          | nil =>
            simp only [setWalk] at hsub
            exact setKey_some_container _ a val sub hsub
          | cons a2 b2 =>
            simp only [setWalk] at hsub
            cases h2 : setWalk
                (match getKey (match getKey v k with
                   | some c => if c.isNullish = true then freshFor k2 else c
                   | none => freshFor k2) a with
                 | some c => if c.isNullish = true then freshFor a2 else c
                 | none => freshFor a2) (a2 :: b2) val with
            | none => rw [h2] at hsub; simp at hsub
            | some s2 =>
              rw [h2] at hsub
              exact setKey_some_container _ a s2 sub hsub
      have hget : getKey w k = some sub :=
        getKey_setKey_of_container v k sub w hsubc h
      rw [hget]
      dsimp only
      rw [container_not_nullish sub hsubc]
      simp only [Bool.false_eq_true, if_false, ite_false]
      rw [setWalk_idem (k2 :: ks) _ val sub hsub]
      exact setKey_idem v k sub w h
end ChangeTracking

namespace ChangeTracking
def noChildren : JVal → Bool
  | .num _ | .bool _ | .nan | .inf | .ninf => true
  | _ => false

theorem getKey_noChildren (v : JVal) (h : noChildren v = true) (k : String) :
    getKey v k = none := by
  cases v <;> simp_all [noChildren, getKey]

theorem noChildren_not_nullish (v : JVal) (h : noChildren v = true) :
    v.isNullish = false := by
  cases v <;> simp_all [noChildren, JVal.isNullish]

theorem getWalk_noChildren (v : JVal) (h : noChildren v = true) :
    ∀ (ks : List String) (t : JVal), getWalk v ks = some t → t = v := by
  intro ks t hw
  cases ks with
  | nil => simpa [getWalk] using hw.symm
  | cons k ks =>
    simp only [getWalk, noChildren_not_nullish v h, Bool.false_eq_true,
      if_false, ite_false, getKey_noChildren v h k] at hw
    exact absurd hw (by simp)

theorem str_walk_not_container (s : String) :
    ∀ (ks : List String) (t : JVal), getWalk (.str s) ks = some t →
      isObjectTy t = false := by
  intro ks
  induction ks generalizing s with
  | nil =>
    intro t hw
    simp only [getWalk, Option.some.injEq] at hw
    subst hw; rfl
  | cons k ks ih =>
    intro t hw
    simp only [getWalk, JVal.isNullish, Bool.false_eq_true, if_false,
      ite_false] at hw
    cases hk : getKey (.str s) k with
    | none => rw [hk] at hw; simp at hw
    | some w =>
      rw [hk] at hw
      dsimp only at hw
      simp only [getKey] at hk
      cases hc : canonIndex k with
      | some i =>
        rw [hc] at hk
        dsimp only at hk
        cases hg : s.data.get? i with
        | none => rw [hg] at hk; simp at hk
        | some c =>
          rw [hg] at hk
          simp only [Option.map, Option.some.injEq] at hk
          subst hk
          exact ih _ t hw
      | none =>
        rw [hc] at hk
        dsimp only at hk
        by_cases hl : k = "length"
        · simp only [hl, if_true, ite_true, Option.some.injEq] at hk
          subst hk
          have := getWalk_noChildren (.num s.length) rfl ks t hw
          subst this; rfl
        · simp [hl] at hk
end ChangeTracking

namespace ChangeTracking
theorem container_getKey_replaceChild (root : JVal) (k : String) (w c : JVal)
    (hk : getKey root k = some w)
    (hno : ¬(∃ xs ps, root = .arr xs ps ∧ canonIndex k = none ∧ k = "length"))
    (hroot : isObjectTy root = true) :
    getKey (replaceChild root k c) k = some c := by
  cases root with
  | obj kvs =>
    simp [replaceChild, getKey, lookupProp_setProp]
  | arr xs ps =>
    simp only [getKey] at hk
    cases hc : canonIndex k with
    | some i =>
      rw [hc] at hk
      dsimp only at hk
      have hi : i < xs.length := by
        by_contra hcon
        rw [List.get?_eq_getElem?, List.getElem?_eq_none (by omega)] at hk
        simp at hk
      simp only [replaceChild, hc, hi, if_true, ite_true]
      simp [getKey, hc, List.getElem?_set_self hi]
    | none =>
      rw [hc] at hk
      dsimp only at hk
      by_cases hl : k = "length"
      · exact absurd ⟨xs, ps, rfl, hc, hl⟩ hno
      · simp only [replaceChild, hc, hl, if_false, ite_false]
        simp [getKey, hc, hl, lookupProp_setProp]
  | _ => simp [isObjectTy] at hroot

theorem replaceChild_container (root : JVal) (k : String) (c : JVal) :
    isObjectTy (replaceChild root k c) = isObjectTy root := by
  cases root
  case arr xs ps =>
    simp only [replaceChild]
    rcases hc : canonIndex k with _ | i <;> dsimp only
    · by_cases h : k = "length" <;> simp [h, isObjectTy]
    · by_cases h : i < xs.length <;> simp [h, isObjectTy]
  all_goals rfl

theorem replaceChild_not_nullish (root : JVal) (k : String) (c : JVal)
    (h : isObjectTy root = true) :
    (replaceChild root k c).isNullish = false :=
  container_not_nullish _ (by rw [replaceChild_container, h])

theorem getWalk_replaceAt :
    ∀ (ks : List String) (root t new : JVal),
      getWalk root ks = some t → isObjectTy t = true → isObjectTy new = true →
      getWalk (replaceAt root ks new) ks = some new
  | [], root, t, new, _, _, _ => by simp [getWalk, replaceAt]
  | k :: ks, root, t, new, h, ht, hnew => by
    simp only [getWalk] at h
    by_cases hr : root.isNullish
    · simp [hr] at h
    · simp only [hr, Bool.false_eq_true, if_false, ite_false] at h
      cases hk : getKey root k with
      | none => rw [hk] at h; simp at h
      | some w =>
        rw [hk] at h
        dsimp only at h
        -- the root of a walk ending in a container is itself a container
        have hroot : isObjectTy root = true := by
          cases root with
          | obj _ => rfl
          | arr _ _ => rfl
          | str s =>
            have := str_walk_not_container s (k :: ks) t
              (by simp only [getWalk, JVal.isNullish, Bool.false_eq_true,
                    if_false, ite_false]
                  rw [hk]
                  exact h)
            rw [ht] at this
            exact absurd this (by simp)
          | _ => simp [getKey] at hk
        -- a "length" step would continue from a child with no children
        have hno : ¬(∃ xs ps, root = .arr xs ps ∧ canonIndex k = none ∧
            k = "length") := by
          rintro ⟨xs, ps, rfl, hc, hl⟩
          subst hl
          simp [getKey, hc] at hk
          subst hk
          have := getWalk_noChildren (.num xs.length) rfl ks t h
          rw [this] at ht
          exact absurd ht (by simp [isObjectTy])
        simp only [replaceAt, hk]
        simp only [getWalk, replaceChild_not_nullish root k _ hroot,
          Bool.false_eq_true, if_false, ite_false]
        rw [container_getKey_replaceChild root k w _ hk hno hroot]
        dsimp only
        exact getWalk_replaceAt ks w t new h ht hnew
end ChangeTracking

namespace ChangeTracking
theorem setProp_of_lookup : ∀ (kvs : List (String × JVal)) (k : String)
    (v : JVal), lookupProp kvs k = some v → setProp kvs k v = kvs
  | [], k, v, h => by simp [lookupProp] at h
  | (k0, v0) :: kvs, k, v, h => by
    by_cases hk : k0 = k
    · subst hk
      simp [lookupProp, List.find?] at h
      simp [setProp, h]
    · have hb : (k0 == k) = false := by simp [hk]
      have h2 : lookupProp kvs k = some v := by
        simpa [lookupProp, List.find?, hb] using h
      simp [setProp, hk, setProp_of_lookup kvs k v h2]

theorem replaceChild_getKey_self (v : JVal) (k : String) (c : JVal)
    (h : getKey v k = some c) : replaceChild v k c = v := by
  cases v with
  | obj kvs =>
    simp only [getKey] at h
    simp [replaceChild, setProp_of_lookup kvs k c h]
  | arr xs ps =>
    simp only [getKey] at h
    simp only [replaceChild]
    rcases hc : canonIndex k with _ | i
    · rw [hc] at h
      dsimp only at h
      by_cases hl : k = "length"
      · simp [hl]
      · simp only [hl, if_false, ite_false] at h ⊢
        simp [setProp_of_lookup ps k c h]
    · rw [hc] at h
      dsimp only at h
      by_cases hi : i < xs.length
      · simp only [hi, if_true, ite_true]
        rw [List.get?_eq_getElem?] at h
        simp [set_of_get xs i c h]
      · simp [hi]
  | str s => rfl
  | undef => simp [getKey] at h
  | null => simp [getKey] at h
  | bool b => simp [getKey] at h
  | num n => simp [getKey] at h
  | nan => simp [getKey] at h
  | inf => simp [getKey] at h
  | ninf => simp [getKey] at h

theorem replaceAt_self : ∀ (ks : List String) (root t : JVal),
    getWalk root ks = some t → replaceAt root ks t = root
  | [], root, t, h => by
    simp [getWalk] at h
    simp [replaceAt, h]
  | k :: ks, root, t, h => by
    simp only [getWalk] at h
    by_cases hr : root.isNullish
    · simp [hr] at h
    · simp only [hr, Bool.false_eq_true, if_false, ite_false] at h
      cases hk : getKey root k with
      | none => rw [hk] at h; simp at h
      | some w =>
        rw [hk] at h
        dsimp only at h
        simp only [replaceAt, hk]
        rw [replaceAt_self ks w t h]
        exact replaceChild_getKey_self root k w hk
end ChangeTracking

namespace ChangeTracking
theorem resolveArrayTarget_of_getWalk (obj : JVal) (ap : String) (t : JVal)
    (hG : getWalk obj (parsePath ap) = some t) (ht : t.isNullish = false) :
    resolveArrayTarget obj ap = (some t, parsePath ap) := by
  unfold resolveArrayTarget
  simp [hG, ht]

theorem resolveArrayTarget_fst_spec (obj : JVal) (ap : String) (t : JVal)
    (hR : (resolveArrayTarget obj ap).1 = some t) :
    getWalk obj (parsePath ap) = some t ∧ t.isNullish = false := by
  unfold resolveArrayTarget at hR
  cases hG : getWalk obj (parsePath ap) with
  | none => simp [hG] at hR
  | some w =>
    by_cases hw : w.isNullish = true
    · simp [hG, hw] at hR
    · simp [hG, hw] at hR
      subst hR
      exact ⟨rfl, by simp [hw]⟩

theorem setValueAtIndex_idem (obj : JVal) (path : String) (value : JVal)
    (o2 : JVal) (h : setValueAtIndex obj path value = some o2) :
    setValueAtIndex o2 path value = some o2 := by
  simp only [setValueAtIndex] at h ⊢
  cases hidx : jsParseInt (splitAtSign path).2 with
  | none => simp only [hidx] at h ⊢
  | some i =>
    simp only [hidx] at h ⊢
    by_cases hi : i < 0
    · rw [if_pos hi]
    · rw [if_neg hi] at h ⊢
      cases hR : (resolveArrayTarget obj (splitAtSign path).1).1 with
      | none =>
        have hpair : resolveArrayTarget obj (splitAtSign path).1 =
            (none, parsePath (splitAtSign path).1) :=
          Prod.ext hR (resolveArrayTarget_snd obj (splitAtSign path).1)
        rw [hpair] at h
        simp only [Option.some.injEq] at h
        subst h
        rw [hpair]
      | some t =>
        obtain ⟨hG, htn⟩ := resolveArrayTarget_fst_spec obj (splitAtSign path).1 t hR
        have hpair : resolveArrayTarget obj (splitAtSign path).1 =
            (some t, parsePath (splitAtSign path).1) :=
          Prod.ext hR (resolveArrayTarget_snd obj (splitAtSign path).1)
        rw [hpair] at h
        cases t with
        | arr xs ps =>
          simp only [Option.some.injEq] at h
          subst h
          have hG2 := getWalk_replaceAt (parsePath (splitAtSign path).1) obj
            (.arr xs ps) (.arr (arraySet xs i.toNat value) ps) hG rfl rfl
          rw [resolveArrayTarget_of_getWalk _ _ _ hG2 rfl]
          simp only [Option.some.injEq]
          rw [arraySet_idem]
          exact replaceAt_self (parsePath (splitAtSign path).1) _ _ hG2
        | obj kvs =>
          simp only [Option.some.injEq] at h
          subst h
          have hG2 := getWalk_replaceAt (parsePath (splitAtSign path).1) obj
            (.obj kvs) (.obj (setProp kvs (toString i.toNat) value)) hG rfl rfl
          rw [resolveArrayTarget_of_getWalk _ _ _ hG2 rfl]
          simp only [Option.some.injEq]
          rw [setProp_idem]
          exact replaceAt_self (parsePath (splitAtSign path).1) _ _ hG2
        | undef => simp [JVal.isNullish] at htn
        | null => simp [JVal.isNullish] at htn
        | str s => simp at h
        | bool b => simp at h
        | num n => simp at h
        | nan => simp at h
        | inf => simp at h
        | ninf => simp at h

theorem setPropertyValue_idem (obj : JVal) (path : String) (value : JVal)
    (o2 : JVal) (h : setPropertyValue obj path value = some o2) :
    setPropertyValue o2 path value = some o2 := by
  unfold setPropertyValue at h ⊢
  exact setWalk_idem (parsePath path) obj value o2 h
end ChangeTracking

namespace ChangeTracking
theorem applyFieldChange_update (obj : JVal) (d : ChangeDescriptor) (vp : Bool)
    (nv : String) (nt : PropertyType)
    (htype : d.type = .UPDATE) (hnv2 : d.newValue = some nv)
    (hnt2 : d.newValueType = some nt)
    (hpath : isValidPropertyPath d.propertyPath = true) :
    applyFieldChange obj d vp =
      (match parseValue nv nt with
       | .error e => .error e
       | .ok v =>
         if isArrayChange d.propertyPath then
           (match setValueAtIndex obj d.propertyPath v with
            | some o => .ok o
            | none => .error .typeError)
         else
           (match setPropertyValue obj d.propertyPath v with
            | some o => .ok o
            | none => .error .typeError)) := by
  unfold applyFieldChange
  rw [htype, hnv2, hnt2]
  cases hp : parseValue nv nt with
  | error e => simp [hp, hpath]
  | ok v =>
    by_cases hA : isArrayChange d.propertyPath
    · simp [hp, hpath, hA, applyArrayChange]
    · simp [hp, hpath, hA, applyPropertyChange]
end ChangeTracking

namespace ChangeTracking
/-- C9: applying an UPDATE descriptor (with a valid property path and both
newValue and newValueType present) is idempotent: if one application of the
descriptor produces a result state, applying the same descriptor to that
result reproduces it unchanged — both for plain property paths (dispatched
to setPropertyValue) and for array-mutation @ paths (dispatched to
setValueAtIndex). -/
theorem c9_update_idempotent (obj o2 : JVal) (d : ChangeDescriptor) (vp : Bool)
    (nv : String) (nt : PropertyType)
    (htype : d.type = .UPDATE) (hnv2 : d.newValue = some nv)
    (hnt2 : d.newValueType = some nt)
    (hpath : isValidPropertyPath d.propertyPath = true)
    (h : applyFieldChange obj d vp = .ok o2) :
    applyFieldChange o2 d vp = .ok o2 := by
  rw [applyFieldChange_update obj d vp nv nt htype hnv2 hnt2 hpath] at h
  rw [applyFieldChange_update o2 d vp nv nt htype hnv2 hnt2 hpath]
  cases hp : parseValue nv nt with
  | error e => rw [hp] at h; simp at h
  | ok v =>
    rw [hp] at h
    dsimp only at h
    dsimp only
    by_cases hA : isArrayChange d.propertyPath
    · rw [if_pos hA] at h ⊢
      cases hs : setValueAtIndex obj d.propertyPath v with
      | none => rw [hs] at h; simp at h
      | some o =>
        rw [hs] at h
        dsimp only at h
        simp only [Except.ok.injEq] at h
        subst h
        rw [setValueAtIndex_idem obj d.propertyPath v _ hs]
    · rw [if_neg hA] at h ⊢
      cases hs : setPropertyValue obj d.propertyPath v with
      | none => rw [hs] at h; simp at h
      | some o =>
        rw [hs] at h
        dsimp only at h
        simp only [Except.ok.injEq] at h
        subst h
        rw [setPropertyValue_idem obj d.propertyPath v _ hs]
end ChangeTracking

namespace ChangeTracking
theorem c9_update_idempotent_witness :
    applyFieldChange (.obj []) ⟨.UPDATE, "a", some "x", some .STRING⟩ true =
      .ok (.obj [("a", .str "x")]) ∧
    applyFieldChange (.obj [("a", JVal.str "x")])
        ⟨.UPDATE, "a", some "x", some .STRING⟩ true =
      .ok (.obj [("a", .str "x")]) :=
  ⟨rfl, c9_update_idempotent (.obj []) (.obj [("a", .str "x")])
    ⟨.UPDATE, "a", some "x", some .STRING⟩ true "x" .STRING rfl rfl rfl
    (by decide) rfl⟩
end ChangeTracking

namespace ChangeTracking
-- Parser fuel needed by pVal on the encoding of a value (one unit per
-- nesting step of the mutual pVal/pArr/pObj recursion).
mutual
def reqV : JVal → Nat
  | .arr xs _ => reqL xs + 1
  | .obj kvs => reqO kvs + 1
  | _ => 1

def reqL : List JVal → Nat
  | [] => 1
  | x :: xs => max (reqV x) (reqL xs) + 1

def reqO : List (String × JVal) → Nat
  | [] => 1
  | (_, v) :: kvs => max (reqV v) (reqO kvs) + 1
end

/-- A continuation whose head cannot extend a digit token. -/
def noDigitHead : List Char → Bool
  | [] => true
  | c :: _ => !c.isDigit

theorem digitChar_toNat (d : Nat) (h : d < 10) : (digitChar d).toNat = 48 + d := by
  interval_cases d <;> rfl

theorem digitChar_isDigit (d : Nat) : (digitChar d).isDigit = true := by
  match d with
  | 0 | 1 | 2 | 3 | 4 | 5 | 6 | 7 | 8 => rfl
  | n + 9 => rfl

theorem natDigsF_ne_nil (f n : Nat) : natDigsF f n ≠ [] := by
  cases f with
  | zero => simp [natDigsF]
  | succ f =>
    by_cases h : n < 10
    · simp [natDigsF, h]
    · simp [natDigsF, h]

theorem natDigsF_all (f : Nat) : ∀ n, (natDigsF f n).all Char.isDigit = true := by
  induction f with
  | zero => intro n; simp [natDigsF, digitChar_isDigit]
  | succ f ih =>
    intro n
    by_cases h : n < 10
    · simp [natDigsF, h, digitChar_isDigit]
    · simp [natDigsF, h, digitChar_isDigit, List.all_append]
      simpa using ih (n / 10)

theorem foldl_digits (f : Nat) : ∀ n acc, n ≤ f →
    (natDigsF f n).foldl (fun a c => a * 10 + (c.toNat - 48)) acc =
      acc * 10 ^ (natDigsF f n).length + n := by
  induction f with
  | zero =>
    intro n acc h
    have h0 : n = 0 := Nat.le_zero.mp h
    subst h0
    simp [natDigsF]
    rfl
  | succ f ih =>
    intro n acc h
    by_cases hlt : n < 10
    · simp only [natDigsF, hlt, if_true, ite_true, List.foldl_cons,
        List.foldl_nil, List.length_cons, List.length_nil]
      rw [digitChar_toNat n hlt]
      simp
    · simp only [natDigsF, hlt, Bool.false_eq_true, if_false, ite_false]
      rw [List.foldl_append]
      have hdiv : n / 10 ≤ f := by omega
      rw [ih (n / 10) acc hdiv]
      simp only [List.foldl_cons, List.foldl_nil, List.length_append,
        List.length_cons, List.length_nil]
      rw [digitChar_toNat (n % 10) (Nat.mod_lt n (by omega))]
      have := Nat.div_add_mod n 10
      ring_nf
      omega

theorem digsToNat_natDigs (n : Nat) : digsToNat (natDigs n) = n := by
  unfold digsToNat natDigs
  rw [foldl_digits n n 0 le_rfl]
  simp
end ChangeTracking

namespace ChangeTracking
theorem takeWhile_append_all {α} (p : α → Bool) :
    ∀ (ds rest : List α), ds.all p = true →
    (∀ c, rest.head? = some c → p c = false) →
    (ds ++ rest).takeWhile p = ds ∧ (ds ++ rest).dropWhile p = rest
  | [], rest, _, hrest => by
    cases rest with
    | nil => simp
    | cons c r =>
      have := hrest c rfl
      simp [List.takeWhile, List.dropWhile, this]
  | d :: ds, rest, hall, hrest => by
    simp only [List.all_cons, Bool.and_eq_true] at hall
    obtain ⟨hd, hall⟩ := hall
    obtain ⟨h1, h2⟩ := takeWhile_append_all p ds rest hall hrest
    simp [List.takeWhile, List.dropWhile, hd, h1, h2]
end ChangeTracking

namespace ChangeTracking
theorem pDigits_round (n : Nat) (rest : List Char)
    (hrest : noDigitHead rest = true) :
    pDigits (natDigs n ++ rest) = some (n, rest) := by
  have hall : (natDigs n).all Char.isDigit = true := natDigsF_all n n
  have hhead : ∀ c, rest.head? = some c → c.isDigit = false := by
    intro c hc
    cases rest with
    | nil => simp at hc
    | cons r rs =>
      simp at hc
      subst hc
      simpa [noDigitHead] using hrest
  obtain ⟨h1, h2⟩ := takeWhile_append_all Char.isDigit (natDigs n) rest hall hhead
  unfold pDigits
  rw [h1, h2]
  have hne : natDigs n ≠ [] := natDigsF_ne_nil n n
  simp [hne, digsToNat_natDigs]

theorem hexVal_hexDigitChar (d : Nat) (h : d < 16) :
    hexVal (hexDigitChar d) = some d := by
  interval_cases d <;> rfl
end ChangeTracking

namespace ChangeTracking
theorem pStrChars_round : ∀ (cs rest : List Char),
    pStrChars (encStrBody cs ++ [quoteC] ++ rest) = some (cs, rest)
  | [], rest => by
    simp only [encStrBody, List.nil_append]
    rw [pStrChars.eq_def]
    simp [quoteC]
  | c :: cs, rest => by
    have ih := pStrChars_round cs rest
    simp only [List.append_assoc, List.singleton_append, quoteC, bslashC] at ih
    show pStrChars ((escChar c ++ encStrBody cs) ++ [quoteC] ++ rest) =
      some (c :: cs, rest)
    by_cases h1 : c = quoteC
    · subst h1
      simp only [escChar, if_pos rfl]
      rw [pStrChars.eq_def]
      simp [quoteC, bslashC, ih]
    · by_cases h2 : c = bslashC
      · subst h2
        simp only [escChar, if_neg (by decide : ¬(bslashC = quoteC)), if_pos rfl]
        rw [pStrChars.eq_def]
        simp [quoteC, bslashC, ih]
      · by_cases h3 : c = Char.ofNat 8
        · subst h3
          simp only [escChar, if_neg h1, if_neg h2, if_pos rfl]
          rw [pStrChars.eq_def]
          simp [quoteC, bslashC, ih]
        · by_cases h4 : c = Char.ofNat 9
          · subst h4
            simp only [escChar, if_neg h1, if_neg h2, if_neg h3, if_pos rfl]
            rw [pStrChars.eq_def]
            simp [quoteC, bslashC, ih]
          · by_cases h5 : c = Char.ofNat 10
            · subst h5
              simp only [escChar, if_neg h1, if_neg h2, if_neg h3, if_neg h4,
                if_pos rfl]
              rw [pStrChars.eq_def]
              simp [quoteC, bslashC, ih]
            · by_cases h6 : c = Char.ofNat 12
              · subst h6
                simp only [escChar, if_neg h1, if_neg h2, if_neg h3, if_neg h4,
                  if_neg h5, if_pos rfl]
                rw [pStrChars.eq_def]
                simp [quoteC, bslashC, ih]
              · by_cases h7 : c = Char.ofNat 13
                · subst h7
                  simp only [escChar, if_neg h1, if_neg h2, if_neg h3,
                    if_neg h4, if_neg h5, if_neg h6, if_pos rfl]
                  rw [pStrChars.eq_def]
                  simp [quoteC, bslashC, ih]
                · by_cases h8 : c.toNat < 32
                  · simp only [escChar, if_neg h1, if_neg h2, if_neg h3,
                      if_neg h4, if_neg h5, if_neg h6, if_neg h7, if_pos h8]
                    rw [pStrChars.eq_def]
                    have hd3 : c.toNat / 16 < 16 := by omega
                    have hd4 : c.toNat % 16 < 16 := Nat.mod_lt _ (by omega)
                    simp [quoteC, bslashC,
                      (by decide : hexVal '0' = some 0),
                      hexVal_hexDigitChar _ hd3, hexVal_hexDigitChar _ hd4,
                      Nat.div_add_mod, (by omega : c.toNat < 55296),
                      Char.ofNat_toNat, ih]
                    have hdm : c.toNat / 16 * 16 + c.toNat % 16 = c.toNat := by
                      omega
                    rw [hdm]
                    exact ⟨by omega, Char.ofNat_toNat c⟩
                  · simp only [escChar, if_neg h1, if_neg h2, if_neg h3,
                      if_neg h4, if_neg h5, if_neg h6, if_neg h7, if_neg h8]
                    simp only [quoteC, bslashC] at h1 h2
                    rw [pStrChars.eq_def]
                    simp [quoteC, bslashC, h1, h2, ih]
end ChangeTracking

namespace ChangeTracking
theorem isDigit_ne_rbracket (c : Char) (hc : c.isDigit = true) : c ≠ ']' := by
  rintro rfl; exact absurd hc (by decide)

theorem pVal_digit (f : Nat) (c : Char) (cs : List Char)
    (hc : c.isDigit = true) :
    pVal (f + 1) (c :: cs) =
      (pDigits (c :: cs)).map (fun p => (JVal.num (p.1 : Int), p.2)) := by
  have hn : c ≠ 'n' := by rintro rfl; exact absurd hc (by decide)
  have ht : c ≠ 't' := by rintro rfl; exact absurd hc (by decide)
  have hf2 : c ≠ 'f' := by rintro rfl; exact absurd hc (by decide)
  have hm : c ≠ '-' := by rintro rfl; exact absurd hc (by decide)
  have hb : c ≠ '[' := by rintro rfl; exact absurd hc (by decide)
  have hq : c ≠ quoteC := by rintro rfl; exact absurd hc (by decide)
  have hl : c ≠ lbraceC := by rintro rfl; exact absurd hc (by decide)
  simp only [pVal]
  split
  next rest heq => injection heq with h1 h2; exact absurd h1 hn
  next rest heq => injection heq with h1 h2; exact absurd h1 ht
  next rest heq => injection heq with h1 h2; exact absurd h1 hf2
  next heq => exact absurd heq (by simp)
  next c2 rest heq =>
    injection heq with h1 h2
    subst h1; subst h2
    rw [if_neg hm, if_neg hb, if_neg hq, if_neg hl, if_pos hc]

theorem encVal_cons (x : JVal) : ∃ c t, encVal x = c :: t ∧ c ≠ ']' := by
  cases x with
  | null => exact ⟨'n', _, rfl, by decide⟩
  | undef => exact ⟨'n', _, rfl, by decide⟩
  | nan => exact ⟨'n', _, rfl, by decide⟩
  | inf => exact ⟨'n', _, rfl, by decide⟩
  | ninf => exact ⟨'n', _, rfl, by decide⟩
  | bool b =>
    cases b
    · exact ⟨'f', _, rfl, by decide⟩
    · exact ⟨'t', _, rfl, by decide⟩
  | num n =>
    show ∃ c t, encInt n = c :: t ∧ c ≠ ']'
    unfold encInt
    by_cases h : n < 0
    · rw [if_pos h]
      exact ⟨'-', _, rfl, by decide⟩
    · rw [if_neg h]
      obtain ⟨d, ds, hd⟩ :=
        List.exists_cons_of_ne_nil (natDigsF_ne_nil n.toNat n.toNat)
      refine ⟨d, ds, hd, ?_⟩
      have hall := natDigsF_all n.toNat n.toNat
      have hdd : d.isDigit = true := by
        have hmem : d ∈ natDigsF n.toNat n.toNat := by
          rw [hd]; exact List.mem_cons_self d ds
        simpa using (List.all_eq_true.mp hall) d hmem
      exact isDigit_ne_rbracket d hdd
  | str s => exact ⟨quoteC, _, rfl, by decide⟩
  | arr xs ps => exact ⟨'[', _, rfl, by decide⟩
  | obj kvs => exact ⟨lbraceC, _, rfl, by decide⟩
end ChangeTracking

namespace ChangeTracking
theorem reqV_pos (x : JVal) : 1 ≤ reqV x := by
  cases x <;> simp [reqV]

theorem reqL_pos (xs : List JVal) : 1 ≤ reqL xs := by
  cases xs <;> simp [reqL]

theorem reqO_pos (kvs : List (String × JVal)) : 1 ≤ reqO kvs := by
  cases kvs with
  | nil => simp [reqO]
  | cons p kvs => obtain ⟨k, v⟩ := p; simp [reqO]

mutual
theorem reqV_le : ∀ x : JVal, reqV x ≤ (encVal x).length + 1
  | .null => by simp [reqV, encVal]
  | .undef => by simp [reqV, encVal]
  | .nan => by simp [reqV, encVal]
  | .inf => by simp [reqV, encVal]
  | .ninf => by simp [reqV, encVal]
  | .bool b => by cases b <;> simp [reqV, encVal]
  | .num n => by simp [reqV]
  | .str s => by simp [reqV]
  | .arr xs ps => by
    have h := reqL_le xs
    simp only [reqV, encVal, List.length_cons, List.length_append]
    omega
  | .obj kvs => by
    have h := reqO_le kvs
    simp only [reqV, encVal, List.length_cons, List.length_append]
    omega

theorem reqL_le : ∀ xs : List JVal, reqL xs ≤ (encElems xs).length + 2
  | [] => by simp [reqL]
  | [x] => by
    have h := reqV_le x
    simp only [reqL, encElems] at h ⊢
    omega
  | x :: x2 :: xs => by
    have h1 := reqV_le x
    have h2 := reqL_le (x2 :: xs)
    simp only [reqL, encElems, List.length_append, List.length_cons] at h1 h2 ⊢
    omega

theorem reqO_le : ∀ kvs : List (String × JVal), reqO kvs ≤ (encMembers kvs).length + 2
  | [] => by simp [reqO]
  | [(k, v)] => by
    have h := reqV_le v
    simp only [reqO, encMembers, List.length_append, List.length_cons] at h ⊢
    omega
  | (k, v) :: (k2, v2) :: kvs => by
    have h1 := reqV_le v
    have h2 := reqO_le ((k2, v2) :: kvs)
    simp only [reqO, encMembers, List.length_append, List.length_cons] at h1 h2 ⊢
    omega
end
end ChangeTracking

namespace ChangeTracking
theorem natDigs_head (m : Nat) :
    ∃ d ds, natDigs m = d :: ds ∧ d.isDigit = true := by
  obtain ⟨d, ds, hd⟩ :=
    List.exists_cons_of_ne_nil (natDigsF_ne_nil m m)
  refine ⟨d, ds, hd, ?_⟩
  have hall := natDigsF_all m m
  have hmem : d ∈ natDigsF m m := by
    rw [hd]; exact List.mem_cons_self d ds
  simpa using (List.all_eq_true.mp hall) d hmem

mutual
theorem roundV : ∀ (x : JVal) (rest : List Char) (fuel : Nat),
    jsonWF x = true → reqV x ≤ fuel → noDigitHead rest = true →
    pVal fuel (encVal x ++ rest) = some (x, rest)
  | .null, rest, fuel, _, hfuel, _ => by
    obtain ⟨f, rfl⟩ : ∃ f, fuel = f + 1 := ⟨fuel - 1, by simp [reqV] at hfuel; omega⟩
    simp [encVal, pVal]
  | .bool b, rest, fuel, _, hfuel, _ => by
    obtain ⟨f, rfl⟩ : ∃ f, fuel = f + 1 := ⟨fuel - 1, by simp [reqV] at hfuel; omega⟩
    cases b <;> simp [encVal, pVal]
  | .num n, rest, fuel, _, hfuel, hr => by
    obtain ⟨f, rfl⟩ : ∃ f, fuel = f + 1 := ⟨fuel - 1, by simp [reqV] at hfuel; omega⟩
    show pVal (f + 1) (encInt n ++ rest) = some (.num n, rest)
    unfold encInt
    by_cases h : n < 0
    · rw [if_pos h]
      have hpd := pDigits_round (-n).toNat rest hr
      have hcast : (((-n).toNat : Int)) = -n := Int.toNat_of_nonneg (by omega)
      simp [pVal, hpd, hcast]
    · rw [if_neg h]
      obtain ⟨d, ds, hd, hdd⟩ := natDigs_head n.toNat
      rw [show natDigs n.toNat = d :: ds from hd, List.cons_append]
      rw [pVal_digit f d (ds ++ rest) hdd]
      rw [← List.cons_append, ← hd]
      rw [pDigits_round n.toNat rest hr]
      have hcast : ((n.toNat : Int)) = n := Int.toNat_of_nonneg (by omega)
      simp [hcast]
  | .str s, rest, fuel, _, hfuel, _ => by
    obtain ⟨f, rfl⟩ : ∃ f, fuel = f + 1 := ⟨fuel - 1, by simp [reqV] at hfuel; omega⟩
    have hps := pStrChars_round s.data rest
    simp only [List.append_assoc, List.singleton_append, quoteC] at hps
    show pVal (f + 1) (encStr s ++ rest) = some (.str s, rest)
    unfold encStr
    simp [pVal, quoteC, hps]
  | .arr xs ps, rest, fuel, hwf, hfuel, _ => by
    simp only [jsonWF, Bool.and_eq_true] at hwf
    obtain ⟨hps, hxs⟩ := hwf
    cases ps with
    | cons p ps2 => simp [List.isEmpty] at hps
    | nil =>
      obtain ⟨f, rfl⟩ : ∃ f, fuel = f + 1 :=
        ⟨fuel - 1, by simp [reqV] at hfuel; omega⟩
      have hfL : reqL xs ≤ f := by simp [reqV] at hfuel; omega
      show pVal (f + 1) (('[' :: encElems xs ++ [']']) ++ rest) =
        some (.arr xs [], rest)
      have hassoc : ('[' :: encElems xs ++ [']']) ++ rest =
          '[' :: (encElems xs ++ ']' :: rest) := by simp
      rw [hassoc]
      have hrl := roundL xs rest f hxs hfL
      simp [pVal, hrl]
  | .obj kvs, rest, fuel, hwf, hfuel, _ => by
    obtain ⟨f, rfl⟩ : ∃ f, fuel = f + 1 := ⟨fuel - 1, by simp [reqV] at hfuel; omega⟩
    have hfO : reqO kvs ≤ f := by simp [reqV] at hfuel; omega
    have hwfO : jsonWFO kvs = true := by simpa [jsonWF] using hwf
    show pVal (f + 1) ((lbraceC :: encMembers kvs ++ [rbraceC]) ++ rest) =
      some (.obj kvs, rest)
    have hassoc : (lbraceC :: encMembers kvs ++ [rbraceC]) ++ rest =
        lbraceC :: (encMembers kvs ++ rbraceC :: rest) := by simp
    rw [hassoc]
    have hro := roundO kvs rest f hwfO hfO
    simp [rbraceC] at hro
    simp [pVal, lbraceC, rbraceC, quoteC, hro]

theorem roundL : ∀ (xs : List JVal) (rest : List Char) (fuel : Nat),
    jsonWFL xs = true → reqL xs ≤ fuel →
    pArr fuel (encElems xs ++ ']' :: rest) = some (xs, rest)
  | [], rest, fuel, _, hfuel => by
    obtain ⟨f, rfl⟩ : ∃ f, fuel = f + 1 := ⟨fuel - 1, by simp [reqL] at hfuel; omega⟩
    simp [encElems, pArr]
  | [x], rest, fuel, hwf, hfuel => by
    have hx : jsonWF x = true := by simpa [jsonWFL] using hwf
    obtain ⟨f, rfl⟩ : ∃ f, fuel = f + 1 := ⟨fuel - 1, by simp [reqL] at hfuel; omega⟩
    have hfx : reqV x ≤ f := by simp [reqL] at hfuel; omega
    obtain ⟨c, t, henc, hc⟩ := encVal_cons x
    show pArr (f + 1) (encElems [x] ++ ']' :: rest) = some ([x], rest)
    have hcs : encElems [x] ++ ']' :: rest = encVal x ++ ']' :: rest := by
      simp [encElems]
    rw [hcs]
    have hhead : ¬((encVal x ++ ']' :: rest).head? = some ']') := by
      rw [henc]; simp [hc]
    have h1 := roundV x (']' :: rest) f hx hfx rfl
    simp [pArr, hhead, h1]
    exact ⟨by rw [henc]; simp [hc], by rw [henc]; simp⟩
  | x :: x2 :: xs, rest, fuel, hwf, hfuel => by
    have hx : jsonWF x = true := by
      have := hwf
      simp only [jsonWFL, Bool.and_eq_true] at this
      exact this.1
    have htail : jsonWFL (x2 :: xs) = true := by
      have := hwf
      simp only [jsonWFL, Bool.and_eq_true] at this
      simp [jsonWFL, this.2.1, this.2.2]
    obtain ⟨f, rfl⟩ : ∃ f, fuel = f + 1 := ⟨fuel - 1, by simp [reqL] at hfuel; omega⟩
    have hfx : reqV x ≤ f := by simp [reqL] at hfuel; omega
    have hft : reqL (x2 :: xs) ≤ f := by simp [reqL] at hfuel ⊢; omega
    obtain ⟨c, t, henc, hc⟩ := encVal_cons x
    show pArr (f + 1) (encElems (x :: x2 :: xs) ++ ']' :: rest) =
      some (x :: x2 :: xs, rest)
    have hcs : encElems (x :: x2 :: xs) ++ ']' :: rest =
        encVal x ++ ',' :: (encElems (x2 :: xs) ++ ']' :: rest) := by
      simp [encElems]
    rw [hcs]
    have hhead : ¬((encVal x ++ ',' :: (encElems (x2 :: xs) ++ ']' :: rest)).head? =
        some ']') := by
      rw [henc]; simp [hc]
    have h1 := roundV x (',' :: (encElems (x2 :: xs) ++ ']' :: rest)) f hx hfx rfl
    have h2 := roundL (x2 :: xs) rest f htail hft
    simp [pArr, hhead, h1, h2]
    intro hcon
    rw [henc] at hcon
    simp [hc] at hcon

theorem roundO : ∀ (kvs : List (String × JVal)) (rest : List Char) (fuel : Nat),
    jsonWFO kvs = true → reqO kvs ≤ fuel →
    pObj fuel (encMembers kvs ++ rbraceC :: rest) = some (kvs, rest)
  | [], rest, fuel, _, hfuel => by
    obtain ⟨f, rfl⟩ : ∃ f, fuel = f + 1 := ⟨fuel - 1, by simp [reqO] at hfuel; omega⟩
    simp [encMembers, pObj]
  | [(k, v)], rest, fuel, hwf, hfuel => by
    have hv : jsonWF v = true := by simpa [jsonWFO] using hwf
    obtain ⟨f, rfl⟩ : ∃ f, fuel = f + 1 := ⟨fuel - 1, by simp [reqO] at hfuel; omega⟩
    have hfv : reqV v ≤ f := by simp [reqO] at hfuel; omega
    have hps := pStrChars_round k.data (':' :: (encVal v ++ rbraceC :: rest))
    have h1 := roundV v (rbraceC :: rest) f hv hfv rfl
    simp [List.append_assoc, List.singleton_append, quoteC, rbraceC] at hps h1
    show pObj (f + 1) ((encStr k ++ ':' :: encVal v) ++ rbraceC :: rest) =
      some ([(k, v)], rest)
    have hcs : (encStr k ++ ':' :: encVal v) ++ rbraceC :: rest =
        quoteC :: (encStrBody k.data ++ quoteC :: ':' ::
          (encVal v ++ rbraceC :: rest)) := by
      simp [encStr]
    rw [hcs]
    simp [pObj, quoteC, rbraceC, hps, h1]
  | (k, v) :: (k2, v2) :: kvs, rest, fuel, hwf, hfuel => by
    have hv : jsonWF v = true := by
      have := hwf
      simp only [jsonWFO, Bool.and_eq_true] at this
      exact this.1
    have htail : jsonWFO ((k2, v2) :: kvs) = true := by
      have := hwf
      simp only [jsonWFO, Bool.and_eq_true] at this
      simp [jsonWFO, this.2.1, this.2.2]
    obtain ⟨f, rfl⟩ : ∃ f, fuel = f + 1 := ⟨fuel - 1, by simp [reqO] at hfuel; omega⟩
    have hfv : reqV v ≤ f := by simp [reqO] at hfuel; omega
    have hft : reqO ((k2, v2) :: kvs) ≤ f := by simp [reqO] at hfuel ⊢; omega
    have hps := pStrChars_round k.data (':' :: (encVal v ++ ',' ::
      (encMembers ((k2, v2) :: kvs) ++ rbraceC :: rest)))
    have h1 := roundV v (',' :: (encMembers ((k2, v2) :: kvs) ++
      rbraceC :: rest)) f hv hfv rfl
    have h2 := roundO ((k2, v2) :: kvs) rest f htail hft
    simp [List.append_assoc, List.singleton_append, quoteC, rbraceC] at hps h1 h2
    show pObj (f + 1) (encMembers ((k, v) :: (k2, v2) :: kvs) ++ rbraceC :: rest) =
      some ((k, v) :: (k2, v2) :: kvs, rest)
    have hcs : encMembers ((k, v) :: (k2, v2) :: kvs) ++ rbraceC :: rest =
        quoteC :: (encStrBody k.data ++ quoteC :: ':' :: (encVal v ++ ',' ::
          (encMembers ((k2, v2) :: kvs) ++ rbraceC :: rest))) := by
      simp [encMembers, encStr]
    rw [hcs]
    simp [pObj, quoteC, rbraceC, hps, h1, h2]
end
end ChangeTracking

namespace ChangeTracking
theorem jsonParse_stringify (x : JVal) (h : jsonWF x = true) :
    jsonParse (stringifyJ x) = some x := by
  unfold jsonParse stringifyJ
  have hdata : (⟨encVal x⟩ : String).data = encVal x := rfl
  rw [hdata]
  have hr := roundV x [] ((encVal x).length + 1) h (reqV_le x) rfl
  rw [List.append_nil] at hr
  rw [hr]

/-- C3: decode tolerance of `parseValue` for OBJECT values, settled against
the JSON codec model.  For every well-formed JSON value `x`, the
double-encoded form `JSON.stringify(JSON.stringify(x))` decodes back to `x`;
a single `JSON.stringify(x)` decodes back to `x` provided `x` is not itself a
string (for string `x` the parse result is a string and the unconditional
re-parse step destroys it — see the counterexample); and a failing parse
raises a Decode error naming the raw value. -/
theorem c3_decode_tolerance (x : JVal) (raw : String)
    (hwf : jsonWF x = true) (hraw : jsonParse raw = none) :
    parseValue (stringifyJ (.str (stringifyJ x))) .OBJECT = .ok x ∧
    ((∀ s, x ≠ .str s) → parseValue (stringifyJ x) .OBJECT = .ok x) ∧
    parseValue raw .OBJECT = .error (.decodeFailure raw) := by
  have hx := jsonParse_stringify x hwf
  have hsx := jsonParse_stringify (.str (stringifyJ x)) rfl
  refine ⟨?_, ?_, ?_⟩
  · simp [parseValue, hsx, hx]
  · intro hns
    cases x with
    | str s => exact absurd rfl (hns s)
    | null => simp [parseValue, hx]
    | bool b => simp [parseValue, hx]
    | num n => simp [parseValue, hx]
    | arr xs ps => simp [parseValue, hx]
    | obj kvs => simp [parseValue, hx]
    | undef => simp [jsonWF] at hwf
    | nan => simp [jsonWF] at hwf
    | inf => simp [jsonWF] at hwf
    | ninf => simp [jsonWF] at hwf
  · simp [parseValue, hraw]

/-- Claim C3, counterexample: the claim asserts a single `JSON.stringify(x)`
also decodes back to `x` for every JSON-serializable `x`, but for the string
`x = "hello"` the parse of `"\"hello\""` yields the string `hello`, which the
code then unconditionally re-parses; `hello` is not valid JSON, so decoding
raises a Decode error (naming the raw outer value) instead of returning
`x`. -/
theorem c3_single_encode_string_counterexample :
    jsonWF (.str "hello") = true ∧
    parseValue (stringifyJ (.str "hello")) .OBJECT =
      .error (.decodeFailure "\"hello\"") := ⟨rfl, rfl⟩

theorem c3_decode_tolerance_witness :
    jsonWF (.obj [("a", .num 1)]) = true ∧ jsonParse "x" = none ∧
    (parseValue (stringifyJ (.str (stringifyJ (.obj [("a", .num 1)])))) .OBJECT =
        .ok (.obj [("a", .num 1)]) ∧
      ((∀ s, (JVal.obj [("a", .num 1)]) ≠ .str s) →
        parseValue (stringifyJ (.obj [("a", .num 1)])) .OBJECT =
          .ok (.obj [("a", .num 1)])) ∧
      parseValue "x" .OBJECT = .error (.decodeFailure "x")) :=
  ⟨rfl, rfl, c3_decode_tolerance (.obj [("a", .num 1)]) "x" rfl rfl⟩
end ChangeTracking
